import Mathlib

/-!
Verification development for the RealmPortal migration engine
(src/RealmPortal.py, class WoWUIMigrator).

The filesystem is modelled shallowly:

* a file carries its text content plus two flags modelling whether the
  OS-level read (open + read) and write (open + write) of that file
  succeed or raise;
* a directory's children are encoded first-child/next-sibling: the
  constructor dcons holds one child (name, entry) and the rest of the
  sibling chain, dnil ends a chain.  The chain order is the os.listdir
  order of the directory.  This encoding keeps every function
  structurally recursive, so all definitions evaluate by kernel
  reduction.
* paths are lists of path segments; where the Python code compares path
  STRINGS (startswith, substring containment, equality) the model joins
  the segments with "/" and performs the same string operation, so the
  string-level behaviour of the code (including its prefix quirks) is
  preserved.  Segment names, being POSIX file names, contain no "/";
  under that standing assumption the segment count of a path equals the
  length of full_path.split(os.sep) used by the code.
* Python exceptions are modelled by an Except monad with an error
  enumeration; a caught exception is a handled .error value.
* time.strftime and time.time are passed in as explicit parameters
  (timestamp : String, time : Nat), since the code only ever formats
  them into names.

All definitions below are translated from src/RealmPortal.py; the two
definitions whose names begin with spec are instead modelled from the
spec's words, for comparison against the code (claim C6).
-/

/-- Content and OS behaviour of one regular file.  readOk models whether
opening and reading the file succeeds (False: the read raises an OSError,
as for an unreadable file); writeOk models whether writing it back
succeeds. -/
structure FileData where
  content : String
  readOk : Bool := true
  writeOk : Bool := true
deriving DecidableEq

/-- A filesystem subtree.  A directory is dnil or dcons (first child +
rest of the sibling chain, in os.listdir order); file is a regular
file. -/
inductive Entry where
  | file (fd : FileData)
  | dnil
  | dcons (name : String) (child : Entry) (rest : Entry)
deriving DecidableEq

/-- Exceptions of the modelled OS/shutil layer. -/
inductive PyExc where
  | fileExists
  | fileNotFound
  | notADirectory
  | osError
  | shutilError
deriving DecidableEq

instance {ε α : Type} [DecidableEq ε] [DecidableEq α] : DecidableEq (Except ε α) := fun a b =>
  match a, b with
  | .ok x, .ok y =>
    if h : x = y then .isTrue (by rw [h]) else .isFalse (fun he => h (Except.ok.inj he))
  | .error x, .error y =>
    if h : x = y then .isTrue (by rw [h]) else .isFalse (fun he => h (Except.error.inj he))
  | .ok _, .error _ => .isFalse (fun he => Except.noConfusion he)
  | .error _, .ok _ => .isFalse (fun he => Except.noConfusion he)

/-- True for directory nodes (a chain: dnil or dcons), false for files. -/
def Entry.isDirE : Entry → Bool
  | .file _ => false
  | _ => true

/-- os.listdir lookup: first child of the chain with the given name. -/
def Entry.getChild : Entry → String → Option Entry
  | .dcons n e rest, k => if n = k then some e else rest.getChild k
  | _, _ => none

/-- Replace the first child with the given name, appending at the end of
the chain if no child has that name (write-to-name semantics). -/
def Entry.setChild : Entry → String → Entry → Entry
  | .dcons n e rest, k, v => if n = k then .dcons n v rest else .dcons n e (rest.setChild k v)
  | .dnil, k, v => .dcons k v .dnil
  | .file fd, _, _ => .file fd

/-- Remove the first child with the given name from the chain. -/
def Entry.removeChild : Entry → String → Entry
  | .dcons n e rest, k => if n = k then rest else .dcons n e (rest.removeChild k)
  | e, _ => e

/-- Add a child at the end of the chain (a move/copy into a directory
creates a fresh directory entry). -/
def Entry.appendChild : Entry → String → Entry → Entry
  | .dcons n e rest, k, v => .dcons n e (rest.appendChild k v)
  | .dnil, k, v => .dcons k v .dnil
  | .file fd, _, _ => .file fd

/-- The names along a sibling chain, in os.listdir order. -/
def Entry.chainNames : Entry → List String
  | .dcons n _ rest => n :: rest.chainNames
  | _ => []

/-- Whether some child of the chain has the given name. -/
def Entry.hasChild (e : Entry) (k : String) : Bool := (e.getChild k).isSome

/-- Well-formedness: along every sibling chain of the tree the names are
pairwise distinct (as they are in a real directory). -/
def Entry.chainNodup : Entry → Bool
  | .dcons n e rest => !(rest.chainNames.contains n) && e.chainNodup && rest.chainNodup
  | _ => true

/-- Structural well-formedness: every sibling chain of the tree is a
dcons spine properly terminated by dnil (a file node never appears in
tail position of a chain), as is automatic for a real directory tree. -/
def Entry.wfTree : Entry → Bool
  | .file _ => true
  | .dnil => true
  | .dcons _ c rest => c.wfTree && rest.isDirE && rest.wfTree

/-- Navigate a relative path (list of segments) from a directory chain. -/
def Entry.getAtPath : Entry → List String → Option Entry
  | e, [] => some e
  | e, n :: rest =>
    match e.getChild n with
    | some c => c.getAtPath rest
    | none => none

/-- The file data found at a relative path, if the path leads to a file. -/
def Entry.fileAtPath (e : Entry) (p : List String) : Option FileData :=
  match e.getAtPath p with
  | some (.file fd) => some fd
  | _ => none

/-- Apply a fallible update to the directory chain at a relative path,
rebuilding the tree; a missing intermediate segment is an OS error. -/
def Entry.modifyAtPath : Entry → List String → (Entry → Except PyExc Entry) → Except PyExc Entry
  | e, [], f => f e
  | e, n :: rest, f =>
    match e.getChild n with
    | none => .error .fileNotFound
    | some c =>
      match c.modifyAtPath rest f with
      | .error er => .error er
      | .ok c2 => .ok (e.setChild n c2)

/-- All files of a subtree with their (relative) paths, walk order. -/
def Entry.allFilesChain (root : List String) : Entry → List (List String × FileData)
  | .file _ => []
  | .dnil => []
  | .dcons n c rest =>
    (match c with
     | .file fd => [(root ++ [n], fd)]
     | cdir => cdir.allFilesChain (root ++ [n])) ++ rest.allFilesChain root

/-! ## String helpers (kernel-computable versions of the str operations
the Python code uses) -/

/-- Join path segments with the os.sep of the modelled POSIX system. -/
def pathStr (p : List String) : String := String.intercalate "/" p

/-- str.startswith. -/
def strStartsWith (s p : String) : Bool := p.data.isPrefixOf s.data

/-- Substring search over characters (the Python infix test a in b). -/
def containsSeq : List Char → List Char → Bool
  | hay, needle =>
    needle.isPrefixOf hay ||
      (match hay with
       | [] => false
       | _ :: t => containsSeq t needle)

/-- The Python substring test: needle in hay. -/
def strContainsSub (hay needle : String) : Bool := containsSeq hay.data needle.data

/-- str.lower (ASCII, as all identity names in scope here are ASCII). -/
def lowerStr (s : String) : String := ⟨s.data.map Char.toLower⟩

/-- Python truthiness of an optional string argument (None and the empty
string are falsy). -/
def truthyOpt : Option String → Bool
  | none => false
  | some s => !s.isEmpty

/-- Proper segment-wise path extension: p is a strict ancestor path of q. -/
def strictSegPrefix (p q : List String) : Bool := p.isPrefixOf q && p != q

/-! ## Regular-expression substitution
re.sub(rf'\b(re.escape(old))\b', new, content, flags=re.IGNORECASE)
is modelled directly: a case-insensitive literal match of old constrained
by word boundaries on both sides, scanning left to right without overlap,
with the replacement inserted verbatim.  Word characters are the ASCII
\w class (the identity names being substituted are ASCII).  Mapping keys
are nonempty (the mapping builders only insert truthy strings), so the
empty-pattern guard of the wrappers is never exercised. -/

/-- ASCII \w. -/
def isWordChar (c : Char) : Bool := c.isAlphanum || c == '_'

/-- Word-character test of an optional neighbouring character; out of
bounds counts as a non-word position. -/
def wordOpt : Option Char → Bool
  | none => false
  | some c => isWordChar c

/-- A \b word boundary between two (optional) neighbouring characters. -/
def isBoundary (l r : Option Char) : Bool := wordOpt l != wordOpt r

/-- Case-insensitive test that pat is a literal prefix of s. -/
def ciStartsWith : List Char → List Char → Bool
  | _, [] => true
  | [], _ :: _ => false
  | c :: cs, p :: ps => (c.toLower == p.toLower) && ciStartsWith cs ps

/-- Whether the regex \b pat \b (IGNORECASE) matches at the current
position, prev being the original character just before the position. -/
def matchesAt (pat : List Char) (prev : Option Char) (s : List Char) : Bool :=
  !pat.isEmpty && ciStartsWith s pat && isBoundary prev s.head? &&
    isBoundary (s.take pat.length).getLast? (s.drop pat.length).head?

/-- One left-to-right re.sub pass.  The first argument counts characters
of a just-matched occurrence still to be skipped (re.sub resumes scanning
after the end of a match); prev tracks the previous character of the
ORIGINAL text, which is what decides the next boundary. -/
def subAux (pat new : List Char) : Nat → Option Char → List Char → List Char
  | _, _, [] => []
  | Nat.succ k, _, c :: rest => subAux pat new k (some c) rest
  | 0, prev, c :: rest =>
    if matchesAt pat prev (c :: rest) then
      new ++ subAux pat new (pat.length - 1) (some c) rest
    else
      c :: subAux pat new 0 (some c) rest

/-- Whether the scanner would find at least one match anywhere. -/
def hasMatchAux (pat : List Char) : Option Char → List Char → Bool
  | _, [] => false
  | prev, c :: rest => matchesAt pat prev (c :: rest) || hasMatchAux pat (some c) rest

/-- re.sub(rf'\b(re.escape(old))\b', new, content, flags=re.IGNORECASE). -/
def reSubWordCI (old new content : String) : String :=
  if old.data.isEmpty then content else ⟨subAux old.data new.data 0 none content.data⟩

/-- Whether the pattern \b old \b matches anywhere in content
(IGNORECASE). -/
def hasMatchWB (old content : String) : Bool :=
  if old.data.isEmpty then false else hasMatchAux old.data none content.data

/-- The loop over content_mappings.items() of update_file_contents:
each key is substituted into the text already modified by the earlier
keys (sequential, chained application). -/
def applyMappings (content_mappings : List (String × String)) (content : String) : String :=
  content_mappings.foldl (fun c kv => reSubWordCI kv.1 kv.2 c) content

/-! ## Mappings (get_folder_mappings / get_content_mappings) -/

/-- Python dict insertion: overwrite in place if the key exists, else
append; .items() iterates in insertion order. -/
def dictInsert (m : List (String × String)) (k v : String) : List (String × String) :=
  if m.any (fun p => p.1 == k) then m.map (fun p => if p.1 == k then (k, v) else p)
  else m ++ [(k, v)]

/-- dict.get(k, default). -/
def lookupMap (m : List (String × String)) (k : String) : Option String :=
  (m.find? (fun p => p.1 == k)).map (fun p => p.2)

/-- get_folder_mappings: account, then realm, then character. -/
def get_folder_mappings (old_realm new_realm : String)
    (old_char new_char old_account new_account : Option String) : List (String × String) :=
  let mappings : List (String × String) := []
  let mappings := if truthyOpt old_account && truthyOpt new_account then
      dictInsert mappings (old_account.getD "") (new_account.getD "") else mappings
  let mappings := if !old_realm.isEmpty && !new_realm.isEmpty then
      dictInsert mappings old_realm new_realm else mappings
  let mappings := if truthyOpt old_char && truthyOpt new_char then
      dictInsert mappings (old_char.getD "") (new_char.getD "") else mappings
  mappings

/-- get_content_mappings: realm, then character, then account. -/
def get_content_mappings (old_realm new_realm : String)
    (old_char new_char old_account new_account : Option String) : List (String × String) :=
  let mappings : List (String × String) := []
  let mappings := if !old_realm.isEmpty && !new_realm.isEmpty then
      dictInsert mappings old_realm new_realm else mappings
  let mappings := if truthyOpt old_char && truthyOpt new_char then
      dictInsert mappings (old_char.getD "") (new_char.getD "") else mappings
  let mappings := if truthyOpt old_account && truthyOpt new_account then
      dictInsert mappings (old_account.getD "") (new_account.getD "") else mappings
  mappings

/-! ## File-extension recognition -/

/-- Index of the last dot of a character list, if any. -/
def lastIndexOfDot : List Char → Option Nat
  | [] => none
  | c :: rest =>
    match lastIndexOfDot rest with
    | some i => some (i + 1)
    | none => if c == '.' then some 0 else none

/-- os.path.splitext(name)[1]: the extension starting at the last dot,
empty when every character before that dot is itself a dot (leading-dot
files have no extension). -/
def splitextExt (name : String) : String :=
  match lastIndexOfDot name.data with
  | none => ""
  | some i =>
    if (name.data.take i).all (fun c => c == '.') then "" else ⟨name.data.drop i⟩

/-- self.config_extensions. -/
def config_extensions : List String := [".lua", ".txt", ".toc", ".xml", ".wtf"]

/-- The per-file extension test of update_file_contents. -/
def extOk (file_name : String) : Bool :=
  config_extensions.contains (lowerStr (splitextExt file_name))

/-! ## Scope filters -/

/-- The rename-pass scope test (rename_folders, lines 114-120): keep a
directory if its full path string equals the account path or extends it
past a separator, or if it bears the old account's name and the string
"Account" occurs anywhere in the walk root's path string. -/
def renameScopeKeep (working : List String) (old_account : String)
    (root : List String) (dir_name : String) : Bool :=
  let full_path := pathStr (root ++ [dir_name])
  let account_path := pathStr (working ++ ["Account", old_account])
  (full_path == account_path || strStartsWith full_path (account_path ++ "/"))
    || (dir_name == old_account && strContainsSub (pathStr root) "Account")

/-- The content-pass scope test (update_file_contents, lines 191-200):
process the files of a walk root whose path string starts with the old
or new account path string, or which is the working root itself. -/
def contentScopeKeep (working : List String) (old_account : String)
    (content_mappings : List (String × String)) (root : List String) : Bool :=
  let account_path := pathStr (working ++ ["Account", old_account])
  let new_account := (lookupMap content_mappings old_account).getD old_account
  let new_account_path := pathStr (working ++ ["Account", new_account])
  strStartsWith (pathStr root) account_path
    || strStartsWith (pathStr root) new_account_path
    || pathStr root == pathStr working

/-- Content-pass gate for one walk root, including the truthiness test
of the optional account argument. -/
def contentRootKeep (working : List String) (old_account : Option String)
    (content_mappings : List (String × String)) (root : List String) : Bool :=
  match old_account with
  | some a => if a.isEmpty then true else contentScopeKeep working a content_mappings root
  | none => true

/-- Modelled from the spec: the rename-pass scope as the spec words it -
keep directories whose path is under WorkingTree/Account/old-account,
plus the old-account-named directory itself where it appears directly
under an Account folder. -/
def specRenameKeep (working : List String) (old_account : String)
    (root : List String) (dir_name : String) : Bool :=
  let acc := working ++ ["Account", old_account]
  acc.isPrefixOf (root ++ [dir_name]) || (dir_name == old_account && root.getLastD "" == "Account")

/-- Modelled from the spec: the content-pass scope as the spec words it -
files under the old-account path, under the corresponding new-account
path, or directly at the tree root. -/
def specContentKeep (working : List String) (old_account : String)
    (content_mappings : List (String × String)) (root : List String) : Bool :=
  let accSegs := working ++ ["Account", old_account]
  let new_account := (lookupMap content_mappings old_account).getD old_account
  let newSegs := working ++ ["Account", new_account]
  accSegs.isPrefixOf root || newSegs.isPrefixOf root || root == working

/-! ## The walk of rename_folders and the deepest-first sort -/

/-- os.walk restricted to directory entries: the first component lists
the (root, dir_name) pairs of the current chain's own tuple, the second
the pairs contributed by recursing into each subdirectory in listdir
order (os.walk is top-down). -/
def walkAux (root : List String) : Entry → (List (List String × String) × List (List String × String))
  | .file _ => ([], [])
  | .dnil => ([], [])
  | .dcons n c rest =>
    let pr := walkAux root rest
    if c.isDirE then
      let sub := walkAux (root ++ [n]) c
      ((root, n) :: pr.1, (sub.1 ++ sub.2) ++ pr.2)
    else pr

/-- Every (root, dir_name) pair os.walk yields below the given root. -/
def osWalkDirs (root : List String) (e : Entry) : List (List String × String) :=
  (walkAux root e).1 ++ (walkAux root e).2

/-- The all_dirs list of rename_folders: walk, scope-filter, and pair
each kept full path with its segment count. -/
def collectAllDirs (working : List String) (old_account : Option String) (e : Entry) :
    List (List String × Nat) :=
  (osWalkDirs working e).filterMap (fun rn =>
    let keep := match old_account with
      | some a => if a.isEmpty then true else renameScopeKeep working a rn.1 rn.2
      | none => true
    if keep then some (rn.1 ++ [rn.2], (rn.1 ++ [rn.2]).length) else none)

/-- all_dirs.sort(key=depth, reverse=True): a stable sort, deepest
first. -/
def sortedAllDirs (working : List String) (old_account : Option String) (e : Entry) :
    List (List String × Nat) :=
  List.insertionSort (fun a b : List String × Nat => b.2 ≤ a.2) (collectAllDirs working old_account e)

/-- The first folder_mappings entry whose key equals the directory name
(the for/break lookup loop of rename_folders). -/
def folderNewName (folder_mappings : List (String × String)) (dir_name : String) : Option String :=
  (folder_mappings.find? (fun p => p.1 == dir_name)).map (fun p => p.2)

/-! ## TreeMerger (_merge_directories) -/

/-- A primitive mutating filesystem operation, for the operation trace
of a merge. -/
inductive MOp where
  | move (src dst : List String)
  | rmdir (p : List String)
deriving DecidableEq

/-- shutil.move of the child src_name of a chain onto the name dst_name
in the same chain: plain rename when the destination name is free;
os.rename overwrite when the destination is an existing file (and the
moved node is a file - moving a directory over a file raises); move
INTO when the destination is an existing directory (raising if that
directory already has an entry named src_name). -/
def shutilMoveChild (cs : Entry) (src_name dst_name : String) : Except PyExc Entry :=
  match cs.getChild src_name with
  | none => .error .fileNotFound
  | some node =>
    match cs.getChild dst_name with
    | none => .ok ((cs.removeChild src_name).appendChild dst_name node)
    | some (.file _) =>
      if node.isDirE then .error .osError
      else .ok ((cs.removeChild src_name).setChild dst_name node)
    | some d =>
      if d.hasChild src_name then .error .shutilError
      else .ok ((cs.removeChild src_name).setChild dst_name (d.appendChild src_name node))

/-- _merge_directories: folds the source chain into the target chain,
item by item in listdir order, returning the remaining source chain, the
new target chain and the trace of mutating operations in the order they
were performed.  A subdirectory colliding with a target subdirectory is
merged recursively and then rmdir-ed when emptied; a file colliding with
an existing target entry displaces that entry to
name.backup_(int(time.time())) first.  Recursing into a target entry
that is a file makes os.listdir raise NotADirectoryError.  The removal
of the outermost source directory itself is performed by the caller
(rename_folders), which sees the returned remaining chain. -/
def _merge_directories (source_path target_path : List String) (src tgt : Entry) (time : Nat) :
    Except PyExc (Entry × Entry × List MOp) :=
  match src with
  | .dnil => .ok (.dnil, tgt, [])
  | .file fd => .ok (.file fd, tgt, [])
  | .dcons item child rest =>
    match child with
    | .file fd =>
      (match tgt.getChild item with
       | some _ =>
         let backup_name := item ++ ".backup_" ++ toString time
         (match shutilMoveChild tgt item backup_name with
          | .error er => .error er
          | .ok tgt1 =>
            let tgt2 := tgt1.appendChild item (.file fd)
            (match _merge_directories source_path target_path rest tgt2 time with
             | .error er => .error er
             | .ok (srem, tgt3, tr) =>
               .ok (srem, tgt3,
                 .move (target_path ++ [item]) (target_path ++ [backup_name]) ::
                   .move (source_path ++ [item]) (target_path ++ [item]) :: tr)))
       | none =>
         (match _merge_directories source_path target_path rest (tgt.appendChild item (.file fd)) time with
          | .error er => .error er
          | .ok (srem, tgt3, tr) =>
            .ok (srem, tgt3, .move (source_path ++ [item]) (target_path ++ [item]) :: tr)))
    | cdir =>
      (match tgt.getChild item with
       | some t =>
         if t.isDirE then
           (match _merge_directories (source_path ++ [item]) (target_path ++ [item]) cdir t time with
            | .error er => .error er
            | .ok (csrem, t2, tr1) =>
              let tgt1 := tgt.setChild item t2
              if csrem.chainNames.isEmpty then
                (match _merge_directories source_path target_path rest tgt1 time with
                 | .error er => .error er
                 | .ok (srem, tgt3, tr) =>
                   .ok (srem, tgt3, tr1 ++ [.rmdir (source_path ++ [item])] ++ tr))
              else
                (match _merge_directories source_path target_path rest tgt1 time with
                 | .error er => .error er
                 | .ok (srem, tgt3, tr) => .ok (.dcons item csrem srem, tgt3, tr1 ++ tr)))
         else .error .notADirectory
       | none =>
         (match _merge_directories source_path target_path rest (tgt.appendChild item cdir) time with
          | .error er => .error er
          | .ok (srem, tgt3, tr) =>
            .ok (srem, tgt3, .move (source_path ++ [item]) (target_path ++ [item]) :: tr)))

/-! ## Global state -/

/-- The migrator's state: the directory holding the WTF tree
(parentPath, with children parentChildren), the original folder's name,
self.working_path (as the name of the working child of the same parent;
it is the original until a migration copy is created) and
self.dry_run. -/
structure GState where
  parentPath : List String
  parentChildren : Entry
  origName : String
  workingName : String
  dryRun : Bool
deriving DecidableEq

/-! ## DirectoryRenamer (rename_folders) -/

/-- The merge branch of rename_folders: locate the common parent chain,
fold the source directory into the existing target, and remove the
emptied source directory (the trailing os.rmdir of _merge_directories). -/
def mergeAtParent (tree : Entry) (rel_parent parent_abs : List String)
    (dir_name new_name : String) (time : Nat) : Except PyExc Entry :=
  tree.modifyAtPath rel_parent (fun chain =>
    match chain.getChild dir_name, chain.getChild new_name with
    | some s, some t =>
      if s.isDirE && t.isDirE then
        match _merge_directories (parent_abs ++ [dir_name]) (parent_abs ++ [new_name]) s t time with
        | .error er => .error er
        | .ok (srem, t2, _tr) =>
          let chain2 := chain.setChild new_name t2
          .ok (if srem.chainNames.isEmpty then chain2.removeChild dir_name
               else chain2.setChild dir_name srem)
      else .error .notADirectory
    | _, _ => .error .fileNotFound)

/-- The plain-rename branch of rename_folders (os.rename). -/
def renameAtParent (tree : Entry) (rel_parent : List String)
    (dir_name new_name : String) : Except PyExc Entry :=
  tree.modifyAtPath rel_parent (fun chain =>
    match chain.getChild dir_name with
    | none => .error .fileNotFound
    | some s => .ok ((chain.removeChild dir_name).appendChild new_name s))

/-- The processing loop of rename_folders over the pre-computed,
deepest-first all_dirs list.  A merge failure is caught and the
directory skipped; an os.rename failure propagates (the code does not
guard the plain rename).  In dry-run mode nothing mutates and the
planned rename is only recorded. -/
def renameGo (working : List String) (folder_mappings : List (String × String))
    (dry_run : Bool) (time : Nat) :
    List (List String × Nat) → Entry → List (List String × List String) →
    Except (PyExc × Entry) (Entry × List (List String × List String))
  | [], tree, acc => .ok (tree, acc)
  | d :: ds, tree, acc =>
    let dir_path := d.1
    let dir_name := dir_path.getLastD ""
    let parent_abs := dir_path.dropLast
    let rel_parent := parent_abs.drop working.length
    match folderNewName folder_mappings dir_name with
    | none => renameGo working folder_mappings dry_run time ds tree acc
    | some new_name =>
      if !new_name.isEmpty && new_name != dir_name then
        let new_path := parent_abs ++ [new_name]
        if dry_run then
          renameGo working folder_mappings dry_run time ds tree (acc ++ [(dir_path, new_path)])
        else
          if (tree.getAtPath (rel_parent ++ [new_name])).isSome then
            match mergeAtParent tree rel_parent parent_abs dir_name new_name time with
            | .ok tree2 =>
              renameGo working folder_mappings dry_run time ds tree2 (acc ++ [(dir_path, new_path)])
            | .error _ => renameGo working folder_mappings dry_run time ds tree acc
          else
            match renameAtParent tree rel_parent dir_name new_name with
            | .ok tree2 =>
              renameGo working folder_mappings dry_run time ds tree2 (acc ++ [(dir_path, new_path)])
            | .error er => .error (er, tree)
      else renameGo working folder_mappings dry_run time ds tree acc

/-- rename_folders: snapshot and sort every directory of the working
tree (before any mutation), then process the list.  os.walk of a missing
working path yields nothing. -/
def rename_folders (st : GState) (folder_mappings : List (String × String))
    (old_account : Option String) (time : Nat) :
    Except (PyExc × GState) (GState × List (List String × List String)) :=
  match st.parentChildren.getChild st.workingName with
  | none => .ok (st, [])
  | some tree0 =>
    let working := st.parentPath ++ [st.workingName]
    let all_dirs := sortedAllDirs working old_account tree0
    match renameGo working folder_mappings st.dryRun time all_dirs tree0 [] with
    | .ok (tree1, renamed) =>
      .ok ({ st with parentChildren := st.parentChildren.setChild st.workingName tree1 }, renamed)
    | .error (er, tree1) =>
      .error (er, { st with parentChildren := st.parentChildren.setChild st.workingName tree1 })

/-! ## ContentRewriter (update_file_contents) -/

/-- The per-file body of update_file_contents, inside its try block:
read (an unreadable file raises and is skipped unchanged), substitute
every mapping key, and when the text changed write it back (a failing
write raises after nothing was recorded) unless in dry-run mode; the
Bool reports whether the file was appended to updated_files. -/
def processFileData (content_mappings : List (String × String)) (dry_run : Bool)
    (fd : FileData) : FileData × Bool :=
  if fd.readOk = false then (fd, false)
  else
    let content := applyMappings content_mappings fd.content
    if content = fd.content then (fd, false)
    else
      if dry_run then (fd, true)
      else if fd.writeOk then ({ fd with content := content }, true)
      else (fd, false)

/-- The walk of update_file_contents: at each root, when the scope gate
admits the root, process every file with a recognized extension; then
recurse into each subdirectory (os.walk order: the root's own files
first, then each subtree).  Returns the new chain, the updated paths of
this root and the updated paths from below. -/
def updTree (working : List String) (old_account : Option String)
    (content_mappings : List (String × String)) (dry_run : Bool) (root : List String) :
    Entry → Entry × List (List String) × List (List String)
  | .file fd => (.file fd, [], [])
  | .dnil => (.dnil, [], [])
  | .dcons name child rest =>
    let pr := updTree working old_account content_mappings dry_run root rest
    match child with
    | .file fd =>
      if contentRootKeep working old_account content_mappings root && extOk name then
        let r := processFileData content_mappings dry_run fd
        (.dcons name (.file r.1) pr.1, (if r.2 then [root ++ [name]] else []) ++ pr.2.1, pr.2.2)
      else (.dcons name (.file fd) pr.1, pr.2.1, pr.2.2)
    | cdir =>
      let sub := updTree working old_account content_mappings dry_run (root ++ [name]) cdir
      (.dcons name sub.1 pr.1, pr.2.1, (sub.2.1 ++ sub.2.2) ++ pr.2.2)

/-- update_file_contents: walk the working tree and rewrite recognized
files in place, returning the updated-file paths in walk order. -/
def update_file_contents (st : GState) (content_mappings : List (String × String))
    (old_account : Option String) : GState × List (List String) :=
  match st.parentChildren.getChild st.workingName with
  | none => (st, [])
  | some tree0 =>
    let working := st.parentPath ++ [st.workingName]
    let r := updTree working old_account content_mappings st.dryRun working tree0
    ({ st with parentChildren := st.parentChildren.setChild st.workingName r.1 }, r.2.1 ++ r.2.2)

/-! ## MigrationOrchestrator (create_migration_copy, migrate) -/

/-- The copy folder's name: WTF_migrated_ followed by the joined name
parts (realm pair, optional character pair, timestamp). -/
def copyFolderName (old_realm new_realm : String) (old_char new_char : Option String)
    (timestamp : String) : String :=
  let copy_name_parts := [old_realm ++ "_to_" ++ new_realm]
      ++ (if truthyOpt old_char && truthyOpt new_char then
            [(old_char.getD "") ++ "_to_" ++ (new_char.getD "")] else [])
      ++ [timestamp]
  "WTF_migrated_" ++ String.intercalate "_" copy_name_parts

/-- create_migration_copy: in dry-run mode only log; otherwise
shutil.copytree the original to the sibling copy path (raising
FileExistsError when the destination already exists, FileNotFoundError
when the source is gone) and point self.working_path at the copy. -/
def create_migration_copy (st : GState) (old_realm new_realm : String)
    (old_char new_char : Option String) (timestamp : String) : Except PyExc (GState × String) :=
  let copy_name := copyFolderName old_realm new_realm old_char new_char timestamp
  if st.dryRun then .ok (st, copy_name)
  else
    if (st.parentChildren.getChild copy_name).isSome then .error .fileExists
    else
      match st.parentChildren.getChild st.origName with
      | none => .error .fileNotFound
      | some orig =>
        .ok ({ st with
                parentChildren := st.parentChildren.appendChild copy_name orig,
                workingName := copy_name }, copy_name)

/-- migrate: existence check, copy creation (outside the try block),
then the try block around mapping construction, rename_folders and
update_file_contents, whose exceptions are converted to a false
result.  Errors carry the state at the moment of raising. -/
def migrate (st : GState) (old_realm new_realm : String)
    (old_char new_char old_account new_account : Option String)
    (timestamp : String) (time : Nat) : Except (PyExc × GState) (GState × Bool) :=
  if (st.parentChildren.getChild st.origName).isNone then .ok (st, false)
  else
    match create_migration_copy st old_realm new_realm old_char new_char timestamp with
    | .error er => .error (er, st)
    | .ok (st1, _copy_path) =>
      let folder_mappings := get_folder_mappings old_realm new_realm old_char new_char old_account new_account
      let content_mappings := get_content_mappings old_realm new_realm old_char new_char old_account new_account
      match rename_folders st1 folder_mappings old_account time with
      | .error (_, st2) => .ok (st2, false)
      | .ok (st2, _renamed) =>
        let r := update_file_contents st2 content_mappings old_account
        .ok (r.1, true)

/-- The state after a run, raised or returned. -/
def migrateFinal (r : Except (PyExc × GState) (GState × Bool)) : GState :=
  match r with
  | .ok s => s.1
  | .error es => es.2

/-- The files of the working tree of a state, with tree-relative paths. -/
def workingFiles (st : GState) : List (List String × FileData) :=
  match st.parentChildren.getChild st.workingName with
  | some t => t.allFilesChain []
  | none => []

/-- The file found at a tree-relative path of the working tree. -/
def fileAtWorking (st : GState) (p : List String) : Option FileData :=
  match st.parentChildren.getChild st.workingName with
  | some t => t.fileAtPath p
  | none => none

/-- All file contents of a subtree (to state that a merge destroyed
data). -/
def chainContents (e : Entry) : List String :=
  (e.allFilesChain []).map (fun x => x.2.content)

/-! ## Chain lemmas -/

theorem getChild_eq_none_iff (e : Entry) (k : String) :
    e.getChild k = none ↔ k ∉ e.chainNames := by
  induction e with
  | file fd => simp [Entry.getChild, Entry.chainNames]
  | dnil => simp [Entry.getChild, Entry.chainNames]
  | dcons n c rest ihc ihr =>
    by_cases h : n = k
    · subst h
      simp [Entry.getChild, Entry.chainNames]
    · simp [Entry.getChild, Entry.chainNames, h, ihr, Ne.symm h]

theorem setChild_self (e : Entry) (k : String) (v : Entry) (h : e.getChild k = some v) :
    e.setChild k v = e := by
  induction e with
  | file fd => simp [Entry.getChild] at h
  | dnil => simp [Entry.getChild] at h
  | dcons n c rest ihc ihr =>
    by_cases hn : n = k
    · subst hn
      simp [Entry.getChild] at h
      simp [Entry.setChild, h]
    · simp [Entry.getChild, hn] at h
      simp [Entry.setChild, hn, ihr h]

theorem getChild_setChild_ne (e : Entry) (n : String) (v : Entry) (k : String) (h : k ≠ n) :
    (e.setChild n v).getChild k = e.getChild k := by
  induction e with
  | file fd => simp [Entry.setChild, Entry.getChild]
  | dnil => simp [Entry.setChild, Entry.getChild, Ne.symm h]
  | dcons m c rest ihc ihr =>
    by_cases hm : m = n
    · subst hm
      simp [Entry.setChild, Entry.getChild, Ne.symm h]
    · by_cases hmk : m = k
      · subst hmk
        simp [Entry.setChild, hm, Entry.getChild]
      · simp [Entry.setChild, hm, Entry.getChild, hmk, ihr]

theorem getChild_appendChild_ne (e : Entry) (n : String) (v : Entry) (k : String) (h : k ≠ n) :
    (e.appendChild n v).getChild k = e.getChild k := by
  induction e with
  | file fd => simp [Entry.appendChild]
  | dnil => simp [Entry.appendChild, Entry.getChild, Ne.symm h]
  | dcons m c rest ihc ihr =>
    by_cases hmk : m = k
    · subst hmk
      simp [Entry.appendChild, Entry.getChild]
    · simp [Entry.appendChild, Entry.getChild, hmk, ihr]

theorem getChild_appendChild_self (e : Entry) (n : String) (v : Entry)
    (hwf : e.wfTree = true) (hd : e.isDirE = true) (h : e.getChild n = none) :
    (e.appendChild n v).getChild n = some v := by
  induction e with
  | file fd => simp [Entry.isDirE] at hd
  | dnil => simp [Entry.appendChild, Entry.getChild]
  | dcons m c rest ihc ihr =>
    by_cases hmn : m = n
    · subst hmn
      simp [Entry.getChild] at h
    · simp [Entry.getChild, hmn] at h
      simp only [Entry.wfTree, Bool.and_eq_true] at hwf
      simp [Entry.appendChild, Entry.getChild, hmn]
      exact ihr hwf.2 hwf.1.2 h

theorem getChild_removeChild_ne (e : Entry) (n k : String) (h : k ≠ n) :
    (e.removeChild n).getChild k = e.getChild k := by
  induction e with
  | file fd => simp [Entry.removeChild]
  | dnil => simp [Entry.removeChild]
  | dcons m c rest ihc ihr =>
    by_cases hmn : m = n
    · subst hmn
      simp [Entry.removeChild, Entry.getChild, Ne.symm h]
    · by_cases hmk : m = k
      · subst hmk
        simp [Entry.removeChild, hmn, Entry.getChild]
      · simp [Entry.removeChild, hmn, Entry.getChild, hmk, ihr]

theorem names_removeChild_sublist (e : Entry) (n : String) :
    (e.removeChild n).chainNames.Sublist e.chainNames := by
  induction e with
  | file fd => simp [Entry.removeChild]
  | dnil => simp [Entry.removeChild]
  | dcons m c rest ihc ihr =>
    by_cases hmn : m = n
    · subst hmn
      simp [Entry.removeChild, Entry.chainNames]
    · simp only [Entry.removeChild, hmn, if_false, Entry.chainNames]
      exact List.Sublist.cons₂ _ ihr

theorem chainNodup_names (e : Entry) (h : e.chainNodup = true) : e.chainNames.Nodup := by
  induction e with
  | file fd => simp [Entry.chainNames]
  | dnil => simp [Entry.chainNames]
  | dcons m c rest ihc ihr =>
    simp only [Entry.chainNodup, Bool.and_eq_true, Bool.not_eq_true'] at h
    simp only [Entry.chainNames, List.nodup_cons]
    refine ⟨?_, ihr h.2⟩
    intro hmem
    have hc : rest.chainNames.contains m = true := List.elem_iff.mpr hmem
    rw [h.1.1] at hc
    cases hc

theorem getChild_removeChild_self (e : Entry) (n : String) (hnd : e.chainNames.Nodup) :
    (e.removeChild n).getChild n = none := by
  induction e with
  | file fd => simp [Entry.removeChild, Entry.getChild]
  | dnil => simp [Entry.removeChild, Entry.getChild]
  | dcons m c rest ihc ihr =>
    simp only [Entry.chainNames, List.nodup_cons] at hnd
    by_cases hmn : m = n
    · subst hmn
      simp only [Entry.removeChild, if_pos rfl]
      exact (getChild_eq_none_iff _ _).mpr hnd.1
    · simp [Entry.removeChild, hmn, Entry.getChild, ihr hnd.2]

theorem getChild_isSome_iff (e : Entry) (k : String) :
    (e.getChild k).isSome = true ↔ k ∈ e.chainNames := by
  constructor
  · intro h
    by_contra hmem
    rw [(getChild_eq_none_iff e k).mpr hmem] at h
    cases h
  · intro hmem
    rcases hh : e.getChild k with _ | v
    · exact absurd hmem ((getChild_eq_none_iff e k).mp hh)
    · rfl

theorem wfTree_getChild (e : Entry) (k : String) (v : Entry)
    (h : e.getChild k = some v) (hw : e.wfTree = true) : v.wfTree = true := by
  induction e with
  | file fd => simp [Entry.getChild] at h
  | dnil => simp [Entry.getChild] at h
  | dcons m c rest ihc ihr =>
    simp only [Entry.wfTree, Bool.and_eq_true] at hw
    by_cases hmk : m = k
    · subst hmk
      simp [Entry.getChild] at h
      subst h
      exact hw.1.1
    · simp only [Entry.getChild, hmk, if_false] at h
      exact ihr h hw.2

theorem chainNodup_getChild (e : Entry) (k : String) (v : Entry)
    (h : e.getChild k = some v) (hn : e.chainNodup = true) : v.chainNodup = true := by
  induction e with
  | file fd => simp [Entry.getChild] at h
  | dnil => simp [Entry.getChild] at h
  | dcons m c rest ihc ihr =>
    simp only [Entry.chainNodup, Bool.and_eq_true] at hn
    by_cases hmk : m = k
    · subst hmk
      simp [Entry.getChild] at h
      subst h
      exact hn.1.2
    · simp only [Entry.getChild, hmk, if_false] at h
      exact ihr h hn.2

theorem isDirE_setChild (e : Entry) (k : String) (v : Entry) :
    (e.setChild k v).isDirE = e.isDirE := by
  induction e with
  | file fd => simp [Entry.setChild]
  | dnil => simp [Entry.setChild, Entry.isDirE]
  | dcons m c rest ihc ihr =>
    by_cases hmk : m = k <;> simp [Entry.setChild, hmk, Entry.isDirE]

theorem wfTree_setChild (e : Entry) (k : String) (v : Entry)
    (he : e.wfTree = true) (hv : v.wfTree = true) : (e.setChild k v).wfTree = true := by
  induction e with
  | file fd => simpa [Entry.setChild] using he
  | dnil => simp [Entry.setChild, Entry.wfTree, Entry.isDirE, hv]
  | dcons m c rest ihc ihr =>
    simp only [Entry.wfTree, Bool.and_eq_true] at he
    by_cases hmk : m = k
    · simp [Entry.setChild, hmk, Entry.wfTree, hv, he.1.2, he.2]
    · simp [Entry.setChild, hmk, Entry.wfTree, he.1.1, isDirE_setChild, he.1.2, ihr he.2]

theorem isDirE_appendChild (e : Entry) (k : String) (v : Entry) :
    (e.appendChild k v).isDirE = e.isDirE := by
  induction e with
  | file fd => simp [Entry.appendChild]
  | dnil => simp [Entry.appendChild, Entry.isDirE]
  | dcons m c rest ihc ihr => simp [Entry.appendChild, Entry.isDirE]

theorem wfTree_appendChild (e : Entry) (k : String) (v : Entry)
    (he : e.wfTree = true) (hv : v.wfTree = true) : (e.appendChild k v).wfTree = true := by
  induction e with
  | file fd => simpa [Entry.appendChild] using he
  | dnil => simp [Entry.appendChild, Entry.wfTree, Entry.isDirE, hv]
  | dcons m c rest ihc ihr =>
    simp only [Entry.wfTree, Bool.and_eq_true] at he
    simp [Entry.appendChild, Entry.wfTree, he.1.1, isDirE_appendChild, he.1.2, ihr he.2]

theorem isDirE_removeChild (e : Entry) (k : String) (he : e.wfTree = true) :
    (e.removeChild k).isDirE = e.isDirE := by
  induction e with
  | file fd => simp [Entry.removeChild]
  | dnil => simp [Entry.removeChild]
  | dcons m c rest ihc ihr =>
    simp only [Entry.wfTree, Bool.and_eq_true] at he
    by_cases hmk : m = k
    · simp only [Entry.removeChild, if_pos hmk]
      rw [he.1.2]
      rfl
    · simp only [Entry.removeChild, if_neg hmk]
      rfl

theorem wfTree_removeChild (e : Entry) (k : String) (he : e.wfTree = true) :
    (e.removeChild k).wfTree = true := by
  induction e with
  | file fd => simpa [Entry.removeChild] using he
  | dnil => simpa [Entry.removeChild] using he
  | dcons m c rest ihc ihr =>
    simp only [Entry.wfTree, Bool.and_eq_true] at he
    by_cases hmk : m = k
    · simp only [Entry.removeChild, if_pos hmk]
      exact he.2
    · simp only [Entry.removeChild, if_neg hmk, Entry.wfTree, Bool.and_eq_true]
      refine ⟨⟨he.1.1, ?_⟩, ihr he.2⟩
      rw [isDirE_removeChild _ _ he.2]
      exact he.1.2

theorem chainNames_appendChild (e : Entry) (k : String) (v : Entry)
    (hd : e.isDirE = true) (hwf : e.wfTree = true) :
    (e.appendChild k v).chainNames = e.chainNames ++ [k] := by
  induction e with
  | file fd => simp [Entry.isDirE] at hd
  | dnil => simp [Entry.appendChild, Entry.chainNames]
  | dcons m c rest ihc ihr =>
    simp only [Entry.wfTree, Bool.and_eq_true] at hwf
    simp [Entry.appendChild, Entry.chainNames, ihr hwf.1.2 hwf.2]

theorem chainNames_setChild_of_mem (e : Entry) (k : String) (v : Entry)
    (h : (e.getChild k).isSome = true) :
    (e.setChild k v).chainNames = e.chainNames := by
  induction e with
  | file fd => simp [Entry.getChild] at h
  | dnil => simp [Entry.getChild] at h
  | dcons m c rest ihc ihr =>
    by_cases hmk : m = k
    · simp [Entry.setChild, hmk, Entry.chainNames]
    · simp only [Entry.getChild, hmk, if_false] at h
      simp [Entry.setChild, hmk, Entry.chainNames, ihr h]

theorem nodup_removeChild (e : Entry) (k : String) (hn : e.chainNames.Nodup) :
    (e.removeChild k).chainNames.Nodup :=
  (names_removeChild_sublist e k).nodup hn

theorem nodup_appendChild (e : Entry) (k : String) (v : Entry)
    (hd : e.isDirE = true) (hwf : e.wfTree = true) (h : e.getChild k = none)
    (hn : e.chainNames.Nodup) : (e.appendChild k v).chainNames.Nodup := by
  rw [chainNames_appendChild e k v hd hwf]
  simp [List.nodup_append, hn]
  exact (getChild_eq_none_iff e k).mp h

/-! ## Substitution lemmas -/

theorem subAux_of_no_match (pat new : List Char) :
    ∀ (s : List Char) (prev : Option Char), hasMatchAux pat prev s = false →
      subAux pat new 0 prev s = s := by
  intro s
  induction s with
  | nil => intro prev _; rfl
  | cons c rest ih =>
    intro prev h
    rw [hasMatchAux] at h
    cases hm : matchesAt pat prev (c :: rest) with
    | true => rw [hm] at h; simp at h
    | false =>
      rw [hm] at h
      simp only [Bool.false_or] at h
      rw [subAux, if_neg (by simp [hm])]
      rw [ih (some c) h]

theorem reSub_of_no_match (k v c : String) (h : hasMatchWB k c = false) :
    reSubWordCI k v c = c := by
  rw [reSubWordCI]
  rw [hasMatchWB] at h
  by_cases he : k.data.isEmpty
  · simp [he]
  · rw [if_neg he] at h
    rw [if_neg he, subAux_of_no_match _ _ _ _ h]

theorem applyMappings_of_no_match (ms : List (String × String)) (c : String)
    (h : ∀ kv ∈ ms, hasMatchWB kv.1 c = false) : applyMappings ms c = c := by
  induction ms with
  | nil => rfl
  | cons kv rest ih =>
    show List.foldl _ _ (kv :: rest) = c
    simp only [List.foldl_cons]
    rw [reSub_of_no_match kv.1 kv.2 c (h kv (by simp))]
    exact ih (fun x hx => h x (by simp [hx]))

/-- C5: for every content-mapping key, substitution in file text is
case-insensitive and constrained to whole-word boundaries: substituting
Bob with Alice in the content BobSmith uses Bob's bag leaves the prefix
occurrence inside BobSmith untouched and replaces the boundary-delimited
Bob's, and substituting myrealm with newrealm replaces the occurrences
MyRealm, MYREALM and myrealm identically. -/
theorem content_substitution_word_boundary_case_insensitive :
    reSubWordCI "Bob" "Alice" "BobSmith uses Bob's bag" = "BobSmith uses Alice's bag" ∧
    reSubWordCI "myrealm" "newrealm" "MyRealm" = "newrealm" ∧
    reSubWordCI "myrealm" "newrealm" "MYREALM" = "newrealm" ∧
    reSubWordCI "myrealm" "newrealm" "myrealm" = "newrealm" ∧
    reSubWordCI "myrealm" "newrealm" "set MyRealm MYREALM myrealm end" =
      "set newrealm newrealm newrealm end" := by
  refine ⟨by decide, by decide, by decide, by decide, by decide⟩

/-- C7 (counterexample): the insertion order of the content mapping DOES
have a semantic effect; with the entries A to B and B to C, the two
orders of the same mapping produce different results on the content A,
because each substitution is applied to the text already modified by the
earlier keys. -/
theorem content_mapping_order_dependent :
    applyMappings [("A", "B"), ("B", "C")] "A" = "C" ∧
    applyMappings [("B", "C"), ("A", "B")] "A" = "B" ∧
    applyMappings [("A", "B"), ("B", "C")] "A" ≠ applyMappings [("B", "C"), ("A", "B")] "A" := by
  refine ⟨by decide, by decide, by decide⟩

/-- C7 (amended): the per-key substitutions of update_file_contents are
chained, not independent: each key is substituted into the text already
modified by the earlier keys, so applying the keys of m1 followed by
those of m2 equals applying m2 to the result of m1 - and, as the
counterexample shows, the insertion order of the entries can change the
final text whenever one key matches text produced by another key's
replacement. -/
theorem content_mappings_applied_chained (m1 m2 : List (String × String)) (s : String) :
    applyMappings (m1 ++ m2) s = applyMappings m2 (applyMappings m1 s) :=
  List.foldl_append _ _ _ _

/-! ## Folder-name lookup and claim C10 -/

theorem folderNewName_none (ms : List (String × String)) (dir_name : String)
    (h : ∀ kv ∈ ms, kv.1 ≠ dir_name) : folderNewName ms dir_name = none := by
  unfold folderNewName
  rw [List.find?_eq_none.mpr]
  · rfl
  · intro x hx
    simp [h x hx]

/-- C10: directory renaming matches mapping keys by exact, case-sensitive
string equality on the directory basename: a directory whose name is not
exactly equal to any mapping key is never matched (folderNewName yields
none), so a concrete tree whose directory myrealm differs from the key
MyRealm only in case is left entirely unrenamed by rename_folders, while
the same key does rewrite the text myrealm in file content because
content substitution is case-insensitive. -/
theorem folder_rename_case_sensitive (ms : List (String × String)) (dir_name : String)
    (h : ∀ kv ∈ ms, kv.1 ≠ dir_name) :
    folderNewName ms dir_name = none ∧
    rename_folders
      { parentPath := [], origName := "WTF", workingName := "WTF", dryRun := false,
        parentChildren := .dcons "WTF" (.dcons "myrealm" .dnil .dnil) .dnil }
      [("MyRealm", "NewRealm")] none 0 =
      .ok ({ parentPath := [], origName := "WTF", workingName := "WTF", dryRun := false,
             parentChildren := .dcons "WTF" (.dcons "myrealm" .dnil .dnil) .dnil }, []) ∧
    reSubWordCI "MyRealm" "NewRealm" "myrealm" = "NewRealm" := by
  refine ⟨folderNewName_none ms dir_name h, by decide, by decide⟩

/-- Witness for C10: the hypothesis is satisfied by the concrete mapping
MyRealm to NewRealm and the case-variant directory name myrealm. -/
theorem folder_rename_case_sensitive_witness :
    (∀ kv ∈ [("MyRealm", "NewRealm")], kv.1 ≠ "myrealm") ∧
    folderNewName [("MyRealm", "NewRealm")] "myrealm" = none := by
  refine ⟨by decide, (folder_rename_case_sensitive [("MyRealm", "NewRealm")] "myrealm" (by decide)).1⟩

/-! ## Scope-filter lemmas and claim C6 -/

theorem mem_collectAllDirs_depth (working : List String) (oa : Option String) (e : Entry)
    (x : List String × Nat) (hx : x ∈ collectAllDirs working oa e) : x.2 = x.1.length := by
  unfold collectAllDirs at hx
  rcases List.mem_filterMap.mp hx with ⟨rn, _, hf⟩
  dsimp only at hf
  split at hf
  · cases hf
    rfl
  · cases hf

theorem mem_sortedAllDirs_iff (working : List String) (oa : Option String) (e : Entry)
    (x : List String × Nat) :
    x ∈ sortedAllDirs working oa e ↔ x ∈ collectAllDirs working oa e :=
  (List.perm_insertionSort _ _).mem_iff

theorem mem_collectAllDirs_keep (working : List String) (a : String) (e : Entry)
    (x : List String × Nat) (hx : x ∈ collectAllDirs working (some a) e)
    (ha : a.isEmpty = false) :
    renameScopeKeep working a x.1.dropLast (x.1.getLastD "") = true := by
  unfold collectAllDirs at hx
  rcases List.mem_filterMap.mp hx with ⟨rn, _, hf⟩
  dsimp only at hf
  rw [if_neg (show ¬(a.isEmpty = true) by simp [ha])] at hf
  split at hf
  · rename_i hkeep
    cases hf
    simpa [List.getLastD_concat] using hkeep
  · cases hf

theorem updTree_upds_keep (working : List String) (oa : Option String)
    (cm : List (String × String)) (dry : Bool) :
    ∀ (e : Entry) (root : List String) (q : List String),
      (q ∈ (updTree working oa cm dry root e).2.1 ∨ q ∈ (updTree working oa cm dry root e).2.2) →
      ∃ R n, q = R ++ [n] ∧ contentRootKeep working oa cm R = true ∧ extOk n = true := by
  intro e
  induction e with
  | file fd =>
    intro root q hq
    simp [updTree] at hq
  | dnil =>
    intro root q hq
    simp [updTree] at hq
  | dcons name child rest ihc ihr =>
    intro root q hq
    cases child with
    | file fd =>
      by_cases hk : (contentRootKeep working oa cm root && extOk name) = true
      · simp only [updTree, hk, if_true] at hq
        rcases hq with hq | hq
        · rcases List.mem_append.mp hq with hq | hq
          · by_cases hflag : (processFileData cm dry fd).2 = true
            · simp only [hflag, if_true, List.mem_singleton] at hq
              subst hq
              have hk2 : contentRootKeep working oa cm root = true ∧ extOk name = true := by
                simpa using hk
              exact ⟨root, name, rfl, hk2.1, hk2.2⟩
            · simp only [Bool.not_eq_true] at hflag
              simp [hflag] at hq
          · exact ihr root q (Or.inl hq)
        · exact ihr root q (Or.inr hq)
      · simp only [updTree, hk, if_false] at hq
        rcases hq with hq | hq
        · exact ihr root q (Or.inl hq)
        · exact ihr root q (Or.inr hq)
    | dnil =>
      simp only [updTree] at hq
      rcases hq with hq | hq
      · exact ihr root q (Or.inl hq)
      · rcases List.mem_append.mp hq with hq | hq
        · rcases List.mem_append.mp hq with hq | hq
          · exact absurd hq (by simp [updTree])
          · exact absurd hq (by simp [updTree])
        · exact ihr root q (Or.inr hq)
    | dcons n2 c2 r2 =>
      simp only [updTree] at hq
      rcases hq with hq | hq
      · exact ihr root q (Or.inl hq)
      · rcases List.mem_append.mp hq with hq | hq
        · rcases List.mem_append.mp hq with hq | hq
          · exact ihc (root ++ [name]) q (Or.inl hq)
          · exact ihc (root ++ [name]) q (Or.inr hq)
        · exact ihr root q (Or.inr hq)

/-- C6 (counterexample): the scope filter of the code diverges from the
claim in both passes, at the concrete working tree home/W.  The rename
pass retains the directory Account/B/OldAcc, whose parent is B rather
than an Account folder (the code only tests that the substring Account
occurs somewhere in the walk root string), although the claim's rule
rejects it; and with the filter Acc the content pass updates a file of
the sibling account directory Account/AccBackup (the code uses a raw
string-prefix test without a separator guard), although the claim's
rule admits only files under the Acc or NewAcc account paths or at the
tree root. -/
theorem scope_filter_diverges_from_spec :
    (sortedAllDirs ["home", "W"] (some "OldAcc")
        (.dcons "Account" (.dcons "B" (.dcons "OldAcc" .dnil .dnil) .dnil) .dnil)).contains
      (["home", "W", "Account", "B", "OldAcc"], 5) = true ∧
    specRenameKeep ["home", "W"] "OldAcc" ["home", "W", "Account", "B"] "OldAcc" = false ∧
    (update_file_contents
        { parentPath := ["home"], origName := "W", workingName := "W", dryRun := false,
          parentChildren := .dcons "W" (.dcons "Account" (.dcons "AccBackup"
            (.dcons "x.lua" (.file { content := "Acc here" }) .dnil) .dnil) .dnil) .dnil }
        [("Acc", "NewAcc")] (some "Acc")).2 = [["home", "W", "Account", "AccBackup", "x.lua"]] ∧
    specContentKeep ["home", "W"] "Acc" [("Acc", "NewAcc")] ["home", "W", "Account", "AccBackup"] =
      false := by
  refine ⟨by decide, by decide, by decide, by decide⟩

/-- C6 (amended): with a truthy scope-filter account, the rename pass
retains only directories admitted by the code's string test
renameScopeKeep - full path equal to or separator-extending the account
path string, or directory named like the old account with the substring
Account occurring anywhere in the walk root string - and every file the
content pass updates has a recognized extension and lies at a walk root
admitted by the code's string test contentScopeKeep - root string
starting with the old or new account path string (which also admits
sibling accounts whose names extend them) or equal to the tree root.
Nothing outside these string-based scopes is touched. -/
theorem scope_filter_characterization (working : List String) (a : String)
    (e : Entry) (st : GState) (cm : List (String × String)) (ha : a.isEmpty = false) :
    (∀ x ∈ sortedAllDirs working (some a) e,
        renameScopeKeep working a x.1.dropLast (x.1.getLastD "") = true) ∧
    (∀ q ∈ (update_file_contents st cm (some a)).2,
        ∃ R n, q = R ++ [n] ∧
          contentScopeKeep (st.parentPath ++ [st.workingName]) a cm R = true ∧
          extOk n = true) := by
  constructor
  · intro x hx
    exact mem_collectAllDirs_keep working a e x ((mem_sortedAllDirs_iff _ _ _ _).mp hx) ha
  · intro q hq
    unfold update_file_contents at hq
    rcases hg : st.parentChildren.getChild st.workingName with _ | tree0
    · rw [hg] at hq
      simp at hq
    · rw [hg] at hq
      simp only at hq
      rcases List.mem_append.mp hq with hq2 | hq2
      · rcases updTree_upds_keep (st.parentPath ++ [st.workingName]) (some a) cm st.dryRun tree0
            (st.parentPath ++ [st.workingName]) q (Or.inl hq2) with ⟨R, n, hqe, hkeep, hext⟩
        refine ⟨R, n, hqe, ?_, hext⟩
        rw [contentRootKeep, if_neg (show ¬(a.isEmpty = true) by simp [ha])] at hkeep
        exact hkeep
      · rcases updTree_upds_keep (st.parentPath ++ [st.workingName]) (some a) cm st.dryRun tree0
            (st.parentPath ++ [st.workingName]) q (Or.inr hq2) with ⟨R, n, hqe, hkeep, hext⟩
        refine ⟨R, n, hqe, ?_, hext⟩
        rw [contentRootKeep, if_neg (show ¬(a.isEmpty = true) by simp [ha])] at hkeep
        exact hkeep

/-- Witness for C6 (amended) at the account name Acc and a concrete tree
and state. -/
theorem scope_filter_characterization_witness :
    "Acc".isEmpty = false ∧
    (∀ x ∈ sortedAllDirs ["home", "W"] (some "Acc") (.dcons "Account" .dnil .dnil),
        renameScopeKeep ["home", "W"] "Acc" x.1.dropLast (x.1.getLastD "") = true) := by
  refine ⟨by decide, (scope_filter_characterization ["home", "W"] "Acc"
    (.dcons "Account" .dnil .dnil)
    { parentPath := ["home"], origName := "W", workingName := "W", dryRun := false,
      parentChildren := .dnil }
    [] (by decide)).1⟩

/-! ## Deepest-first ordering and claim C3 -/

instance : IsTotal (List String × Nat) (fun a b : List String × Nat => b.2 ≤ a.2) :=
  ⟨fun a b => Nat.le_total b.2 a.2⟩

instance : IsTrans (List String × Nat) (fun a b : List String × Nat => b.2 ≤ a.2) :=
  ⟨fun _ _ _ h1 h2 => Nat.le_trans h2 h1⟩

theorem sortedAllDirs_sorted (working : List String) (oa : Option String) (e : Entry) :
    List.Sorted (fun a b : List String × Nat => b.2 ≤ a.2) (sortedAllDirs working oa e) :=
  List.sorted_insertionSort _ _

/-- C3: the rename pass computes its complete directory list (with
segment-count depths) from the pre-mutation tree and sorts it deepest
first; in that sorted list a strict path ancestor always occurs strictly
later than any of its descendants, so when an entry is processed no
earlier entry of the pass was one of its ancestors - an ancestor rename
or merge can never have invalidated a pending path.  The list is
moreover sorted by non-increasing depth throughout. -/
theorem rename_pass_deepest_first (working : List String) (old_account : Option String)
    (e : Entry) (i j : Nat)
    (hi : i < (sortedAllDirs working old_account e).length)
    (hj : j < (sortedAllDirs working old_account e).length)
    (hanc : strictSegPrefix ((sortedAllDirs working old_account e).get ⟨i, hi⟩).1
        ((sortedAllDirs working old_account e).get ⟨j, hj⟩).1 = true) :
    j < i ∧
    List.Sorted (fun a b : List String × Nat => b.2 ≤ a.2)
      (sortedAllDirs working old_account e) := by
  refine ⟨?_, sortedAllDirs_sorted working old_account e⟩
  have hd1 : ((sortedAllDirs working old_account e).get ⟨i, hi⟩).2 =
      ((sortedAllDirs working old_account e).get ⟨i, hi⟩).1.length :=
    mem_collectAllDirs_depth working old_account e _
      ((mem_sortedAllDirs_iff _ _ _ _).mp (List.get_mem _ _ _))
  have hd2 : ((sortedAllDirs working old_account e).get ⟨j, hj⟩).2 =
      ((sortedAllDirs working old_account e).get ⟨j, hj⟩).1.length :=
    mem_collectAllDirs_depth working old_account e _
      ((mem_sortedAllDirs_iff _ _ _ _).mp (List.get_mem _ _ _))
  rcases Bool.and_eq_true _ _ ▸ hanc with ⟨hp, hne⟩
  have hpre : ((sortedAllDirs working old_account e).get ⟨i, hi⟩).1 <+:
      ((sortedAllDirs working old_account e).get ⟨j, hj⟩).1 :=
    List.isPrefixOf_iff_prefix.mp hp
  have hne2 : ((sortedAllDirs working old_account e).get ⟨i, hi⟩).1 ≠
      ((sortedAllDirs working old_account e).get ⟨j, hj⟩).1 := by
    intro hh
    rw [hh] at hne
    simp at hne
  have hlen : ((sortedAllDirs working old_account e).get ⟨i, hi⟩).1.length <
      ((sortedAllDirs working old_account e).get ⟨j, hj⟩).1.length :=
    Nat.lt_of_le_of_ne hpre.length_le (fun hl => hne2 (hpre.eq_of_length hl))
  by_contra hji
  push_neg at hji
  rcases Nat.lt_or_ge i j with hij | hij
  · have hrel := (sortedAllDirs_sorted working old_account e).rel_get_of_lt
      (a := ⟨i, hi⟩) (b := ⟨j, hj⟩) (by simpa using hij)
    omega
  · have hij2 : i = j := Nat.le_antisymm hji hij
    subst hij2
    exact hne2 (by rfl)

/-- Witness for C3 at a two-level concrete tree: the ancestor W/A sits
at index 1, its descendant W/A/B at index 0. -/
theorem rename_pass_deepest_first_witness :
    strictSegPrefix
      ((sortedAllDirs ["W"] none (.dcons "A" (.dcons "B" .dnil .dnil) .dnil)).get ⟨1, by decide⟩).1
      ((sortedAllDirs ["W"] none (.dcons "A" (.dcons "B" .dnil .dnil) .dnil)).get ⟨0, by decide⟩).1
      = true ∧
    (0 < 1 ∧
      List.Sorted (fun a b : List String × Nat => b.2 ≤ a.2)
        (sortedAllDirs ["W"] none (.dcons "A" (.dcons "B" .dnil .dnil) .dnil))) :=
  ⟨by decide, rename_pass_deepest_first ["W"] none (.dcons "A" (.dcons "B" .dnil .dnil) .dnil)
    1 0 (by decide) (by decide) (by decide)⟩

/-! ## Dry-run and state-preservation lemmas -/


theorem processFileData_dry (cm : List (String × String)) (fd : FileData) :
    (processFileData cm true fd).1 = fd := by
  unfold processFileData
  split
  · rfl
  · dsimp only
    split
    · rfl
    · rfl

theorem updTree_dry (working : List String) (oa : Option String) (cm : List (String × String)) :
    ∀ (e : Entry) (root : List String), (updTree working oa cm true root e).1 = e := by
  intro e
  induction e with
  | file fd => intro root; rfl
  | dnil => intro root; rfl
  | dcons name child rest ihc ihr =>
    intro root
    cases child with
    | file fd =>
      cases hk : (contentRootKeep working oa cm root && extOk name) with
      | true => simp [updTree, hk, processFileData_dry, ihr]
      | false => simp [updTree, hk, ihr]
    | dnil => simp [updTree, ihr, ihc]
    | dcons n2 c2 r2 => simp [updTree, ihr, ihc]

theorem renameGo_dry (working : List String) (ms : List (String × String)) (time : Nat) :
    ∀ (ds : List (List String × Nat)) (tree : Entry) (acc : List (List String × List String)),
      ∃ recs, renameGo working ms true time ds tree acc = .ok (tree, recs) := by
  intro ds
  induction ds with
  | nil => intro tree acc; exact ⟨acc, rfl⟩
  | cons d rest ih =>
    intro tree acc
    simp only [renameGo]
    rcases hf : folderNewName ms (d.1.getLastD "") with _ | nn
    · exact ih tree acc
    · by_cases hcond : (!nn.isEmpty && nn != d.1.getLastD "") = true
      · simp only [hcond, if_true]
        exact ih tree _
      · simp only [hcond, if_false]
        exact ih tree acc

theorem setChild_self_state (st : GState) (tree0 : Entry)
    (hg : st.parentChildren.getChild st.workingName = some tree0) :
    { st with parentChildren := st.parentChildren.setChild st.workingName tree0 } = st := by
  rw [setChild_self _ _ _ hg]

theorem rename_folders_dry (st : GState) (ms : List (String × String)) (oa : Option String)
    (time : Nat) (hdry : st.dryRun = true) :
    ∃ r, rename_folders st ms oa time = .ok (st, r) := by
  unfold rename_folders
  rcases hg : st.parentChildren.getChild st.workingName with _ | tree0
  · exact ⟨[], rfl⟩
  · dsimp only
    obtain ⟨recs, hr⟩ := renameGo_dry (st.parentPath ++ [st.workingName]) ms time
      (sortedAllDirs (st.parentPath ++ [st.workingName]) oa tree0) tree0 []
    have hr2 : renameGo (st.parentPath ++ [st.workingName]) ms st.dryRun time
        (sortedAllDirs (st.parentPath ++ [st.workingName]) oa tree0) tree0 [] =
        .ok (tree0, recs) := by
      rw [hdry]
      exact hr
    rw [hr2]
    dsimp only
    refine ⟨recs, ?_⟩
    rw [setChild_self_state st tree0 hg]

theorem update_file_contents_dry (st : GState) (cm : List (String × String)) (oa : Option String)
    (hdry : st.dryRun = true) : (update_file_contents st cm oa).1 = st := by
  unfold update_file_contents
  rcases hg : st.parentChildren.getChild st.workingName with _ | tree0
  · rfl
  · dsimp only
    have h1 : (updTree (st.parentPath ++ [st.workingName]) oa cm st.dryRun
        (st.parentPath ++ [st.workingName]) tree0).1 = tree0 := by
      rw [hdry]
      exact updTree_dry _ _ _ _ _
    rw [h1, setChild_self_state st tree0 hg]

theorem rename_folders_preserves (st : GState) (ms : List (String × String)) (oa : Option String)
    (time : Nat) (k : String) (hk : k ≠ st.workingName) :
    (∀ st' r, rename_folders st ms oa time = .ok (st', r) →
        st'.parentChildren.getChild k = st.parentChildren.getChild k ∧
        st'.workingName = st.workingName) ∧
    (∀ er st', rename_folders st ms oa time = .error (er, st') →
        st'.parentChildren.getChild k = st.parentChildren.getChild k ∧
        st'.workingName = st.workingName) := by
  constructor
  · intro st' r h
    unfold rename_folders at h
    rcases hg : st.parentChildren.getChild st.workingName with _ | tree0
    · rw [hg] at h
      dsimp only at h
      cases h
      exact ⟨rfl, rfl⟩
    · rw [hg] at h
      dsimp only at h
      rcases hgo : renameGo (st.parentPath ++ [st.workingName]) ms st.dryRun time
          (sortedAllDirs (st.parentPath ++ [st.workingName]) oa tree0) tree0 [] with pr | pr
      · rw [hgo] at h
        cases h
      · rw [hgo] at h
        rcases pr with ⟨tree1, renamed⟩
        dsimp only at h
        cases h
        exact ⟨getChild_setChild_ne _ _ _ _ hk, rfl⟩
  · intro er st' h
    unfold rename_folders at h
    rcases hg : st.parentChildren.getChild st.workingName with _ | tree0
    · rw [hg] at h
      dsimp only at h
      cases h
    · rw [hg] at h
      dsimp only at h
      rcases hgo : renameGo (st.parentPath ++ [st.workingName]) ms st.dryRun time
          (sortedAllDirs (st.parentPath ++ [st.workingName]) oa tree0) tree0 [] with pr | pr
      · rw [hgo] at h
        rcases pr with ⟨er2, tree1⟩
        dsimp only at h
        cases h
        exact ⟨getChild_setChild_ne _ _ _ _ hk, rfl⟩
      · rw [hgo] at h
        cases h

theorem update_file_contents_preserves (st : GState) (cm : List (String × String))
    (oa : Option String) (k : String) (hk : k ≠ st.workingName) :
    ((update_file_contents st cm oa).1).parentChildren.getChild k =
      st.parentChildren.getChild k ∧
    ((update_file_contents st cm oa).1).workingName = st.workingName := by
  unfold update_file_contents
  rcases hg : st.parentChildren.getChild st.workingName with _ | tree0
  · exact ⟨rfl, rfl⟩
  · dsimp only
    exact ⟨getChild_setChild_ne _ _ _ _ hk, rfl⟩

/-! ## Claim C1: the original tree is never mutated -/

/-- C1: for every run of migrate - dry or real, successful, failed, or
raising during copy creation - the original input tree (the child
origName of the parent directory) is byte-for-byte unchanged: in a real
run every mutating operation is applied through the working-copy child
created by create_migration_copy, whose name provably differs from the
original's, and in a dry run no mutation happens at all. -/
theorem migrate_preserves_original (st : GState) (old_realm new_realm : String)
    (old_char new_char old_account new_account : Option String) (timestamp : String) (time : Nat) :
    (migrateFinal (migrate st old_realm new_realm old_char new_char old_account new_account
        timestamp time)).parentChildren.getChild st.origName =
      st.parentChildren.getChild st.origName := by
  unfold migrate
  by_cases h0 : (st.parentChildren.getChild st.origName).isNone
  · rw [if_pos h0]
    rfl
  · rw [if_neg h0]
    by_cases hdry : st.dryRun = true
    · have hc : create_migration_copy st old_realm new_realm old_char new_char timestamp =
          .ok (st, copyFolderName old_realm new_realm old_char new_char timestamp) := by
        unfold create_migration_copy
        rw [if_pos hdry]
      rw [hc]
      dsimp only
      obtain ⟨r, hr⟩ := rename_folders_dry st
        (get_folder_mappings old_realm new_realm old_char new_char old_account new_account)
        old_account time hdry
      rw [hr]
      dsimp only
      rw [update_file_contents_dry st _ old_account hdry]
      rfl
    · rcases hcopy : st.parentChildren.getChild
          (copyFolderName old_realm new_realm old_char new_char timestamp) with _ | cv
      · rcases ho : st.parentChildren.getChild st.origName with _ | orig
        · rw [ho] at h0
          simp at h0
        · have hne : st.origName ≠ copyFolderName old_realm new_realm old_char new_char timestamp := by
            intro he
            rw [he, hcopy] at ho
            cases ho
          have hc : create_migration_copy st old_realm new_realm old_char new_char timestamp =
              .ok ({ st with
                      parentChildren := st.parentChildren.appendChild
                        (copyFolderName old_realm new_realm old_char new_char timestamp) orig,
                      workingName :=
                        copyFolderName old_realm new_realm old_char new_char timestamp },
                copyFolderName old_realm new_realm old_char new_char timestamp) := by
            unfold create_migration_copy
            rw [if_neg hdry, hcopy, ho]
            rfl
          rw [hc]
          dsimp only
          have hst1pc : ({ st with
              parentChildren := st.parentChildren.appendChild
                (copyFolderName old_realm new_realm old_char new_char timestamp) orig,
              workingName := copyFolderName old_realm new_realm old_char new_char timestamp }
                : GState).parentChildren.getChild st.origName =
              st.parentChildren.getChild st.origName :=
            getChild_appendChild_ne _ _ _ _ hne
          rcases hrn : rename_folders
              { st with
                parentChildren := st.parentChildren.appendChild
                  (copyFolderName old_realm new_realm old_char new_char timestamp) orig,
                workingName := copyFolderName old_realm new_realm old_char new_char timestamp }
              (get_folder_mappings old_realm new_realm old_char new_char old_account new_account)
              old_account time with pr | pr
          · rcases pr with ⟨er, st2⟩
            have h2 := (rename_folders_preserves _ _ old_account time st.origName hne).2 er st2 hrn
            show st2.parentChildren.getChild st.origName = some orig
            rw [h2.1, hst1pc]
            exact ho
          · rcases pr with ⟨st2, ren⟩
            have h2 := (rename_folders_preserves _ _ old_account time st.origName hne).1 st2 ren hrn
            have hk2 : st.origName ≠ st2.workingName := by
              rw [h2.2]
              exact hne
            have h3 := update_file_contents_preserves st2
              (get_content_mappings old_realm new_realm old_char new_char old_account new_account)
              old_account st.origName hk2
            show ((update_file_contents st2
                (get_content_mappings old_realm new_realm old_char new_char old_account new_account)
                old_account).1).parentChildren.getChild st.origName = some orig
            rw [h3.1, h2.1, hst1pc]
            exact ho
      · have hc : create_migration_copy st old_realm new_realm old_char new_char timestamp =
            .error .fileExists := by
          unfold create_migration_copy
          rw [if_neg hdry, hcopy]
          rfl
        rw [hc]
        rfl

/-! ## Claim C4: exception containment in migrate -/

/-- C4 (counterexample): an exception raised during copy creation is NOT
caught by migrate: when a directory with the destination copy name
already exists, shutil.copytree raises FileExistsError and migrate
propagates it raw instead of returning false. -/
theorem migrate_copy_failure_propagates :
    migrate
      { parentPath := ["home"], origName := "WTF", workingName := "WTF", dryRun := false,
        parentChildren := .dcons "WTF" .dnil (.dcons "WTF_migrated_A_to_B_T" .dnil .dnil) }
      "A" "B" none none none none "T" 0 =
      .error (.fileExists,
        { parentPath := ["home"], origName := "WTF", workingName := "WTF", dryRun := false,
          parentChildren := .dcons "WTF" .dnil (.dcons "WTF_migrated_A_to_B_T" .dnil .dnil) }) := by
  decide

theorem create_migration_copy_ok (st : GState) (old_realm new_realm : String)
    (old_char new_char : Option String) (timestamp : String)
    (h : st.dryRun = true ∨ st.parentChildren.getChild
        (copyFolderName old_realm new_realm old_char new_char timestamp) = none)
    (ho : (st.parentChildren.getChild st.origName).isNone = false) :
    ∃ st1 cp, create_migration_copy st old_realm new_realm old_char new_char timestamp =
      .ok (st1, cp) := by
  unfold create_migration_copy
  by_cases hdry : st.dryRun = true
  · rw [if_pos hdry]
    exact ⟨st, _, rfl⟩
  · rcases h with h | h
    · exact absurd h hdry
    · rw [if_neg hdry, h]
      rcases hoo : st.parentChildren.getChild st.origName with _ | orig
      · rw [hoo] at ho
        simp at ho
      · exact ⟨_, _, rfl⟩

/-- C4 (amended): migrate converts to a false return every exception
raised inside its try block - mapping construction, folder renaming
(whose plain os.rename step can raise) and content rewriting - so
whenever copy creation succeeds (always in dry-run mode, and in a real
run whenever no entry already bears the destination copy name) migrate
returns an ordinary boolean instead of raising; but copy creation
itself runs before the try block, and its exceptions propagate raw, as
the counterexample shows. -/
theorem migrate_no_raise_after_copy (st : GState) (old_realm new_realm : String)
    (old_char new_char old_account new_account : Option String) (timestamp : String) (time : Nat)
    (h : st.dryRun = true ∨ st.parentChildren.getChild
        (copyFolderName old_realm new_realm old_char new_char timestamp) = none) :
    ∃ s b, migrate st old_realm new_realm old_char new_char old_account new_account
        timestamp time = .ok (s, b) := by
  unfold migrate
  by_cases h0 : (st.parentChildren.getChild st.origName).isNone
  · rw [if_pos h0]
    exact ⟨st, false, rfl⟩
  · rw [if_neg h0]
    obtain ⟨st1, cp, hc⟩ := create_migration_copy_ok st old_realm new_realm old_char new_char
      timestamp h (by
        rcases hv : (st.parentChildren.getChild st.origName).isNone with _ | _
        · rfl
        · exact absurd hv h0)
    rw [hc]
    dsimp only
    rcases hrn : rename_folders st1
        (get_folder_mappings old_realm new_realm old_char new_char old_account new_account)
        old_account time with pr | pr
    · rcases pr with ⟨er, st2⟩
      exact ⟨st2, false, rfl⟩
    · rcases pr with ⟨st2, ren⟩
      exact ⟨(update_file_contents st2
        (get_content_mappings old_realm new_realm old_char new_char old_account new_account)
        old_account).1, true, rfl⟩

/-- Witness for C4 (amended): a real-run state whose copy destination
name is free. -/
theorem migrate_no_raise_after_copy_witness :
    (({ parentPath := ["home"], origName := "WTF", workingName := "WTF", dryRun := false,
        parentChildren := Entry.dcons "WTF" .dnil .dnil } : GState).dryRun = true ∨
      ({ parentPath := ["home"], origName := "WTF", workingName := "WTF", dryRun := false,
         parentChildren := Entry.dcons "WTF" .dnil .dnil } : GState).parentChildren.getChild
        (copyFolderName "A" "B" none none "T") = none) ∧
    ∃ s b, migrate
      { parentPath := ["home"], origName := "WTF", workingName := "WTF", dryRun := false,
        parentChildren := Entry.dcons "WTF" .dnil .dnil }
      "A" "B" none none none none "T" 0 = .ok (s, b) :=
  ⟨Or.inr (by decide),
    migrate_no_raise_after_copy
      { parentPath := ["home"], origName := "WTF", workingName := "WTF", dryRun := false,
        parentChildren := Entry.dcons "WTF" .dnil .dnil }
      "A" "B" none none none none "T" 0 (Or.inr (by decide))⟩

/-! ## Claim C8: idempotence of the content-rewrite pass -/

theorem processFileData_no_change (cm : List (String × String)) (dry : Bool) (fd : FileData)
    (h : applyMappings cm fd.content = fd.content) : processFileData cm dry fd = (fd, false) := by
  unfold processFileData
  rcases hr : fd.readOk with _ | _
  · simp [hr]
  · simp [hr, h]

theorem allFilesChain_snd (e : Entry) :
    ∀ r r' : List String,
      (e.allFilesChain r).map Prod.snd = (e.allFilesChain r').map Prod.snd := by
  induction e with
  | file fd => intro r r'; rfl
  | dnil => intro r r'; rfl
  | dcons name child rest ihc ihr =>
    intro r r'
    cases child with
    | file fd => simp [Entry.allFilesChain, ihr r r']
    | dnil => simp [Entry.allFilesChain, ihr r r']
    | dcons n2 c2 r2 => simp [Entry.allFilesChain, ihr r r', ihc (r ++ [name]) (r' ++ [name])]

theorem mem_allFilesChain_rest (root : List String) (name : String) (child rest : Entry)
    (x : List String × FileData) (hx : x ∈ rest.allFilesChain root) :
    x ∈ (Entry.dcons name child rest).allFilesChain root := by
  cases child with
  | file fd =>
    simp only [Entry.allFilesChain, List.mem_append]
    exact Or.inr hx
  | dnil =>
    simpa [Entry.allFilesChain] using hx
  | dcons n2 c2 r2 =>
    simp only [Entry.allFilesChain, List.mem_append]
    exact Or.inr hx

theorem updTree_no_match (working : List String) (oa : Option String)
    (cm : List (String × String)) (dry : Bool) :
    ∀ (e : Entry) (root : List String),
      (∀ x ∈ e.allFilesChain root, ∀ kv ∈ cm, hasMatchWB kv.1 x.2.content = false) →
      updTree working oa cm dry root e = (e, [], []) := by
  intro e
  induction e with
  | file fd => intro root _; rfl
  | dnil => intro root _; rfl
  | dcons name child rest ihc ihr =>
    intro root h
    have hrest : ∀ x ∈ rest.allFilesChain root, ∀ kv ∈ cm, hasMatchWB kv.1 x.2.content = false := by
      intro x hx
      exact h x (mem_allFilesChain_rest root name child rest x hx)
    cases child with
    | file fd =>
      have hfd : ∀ kv ∈ cm, hasMatchWB kv.1 fd.content = false := by
        intro kv hkv
        refine h (root ++ [name], fd) ?_ kv hkv
        simp [Entry.allFilesChain]
      have hnc : applyMappings cm fd.content = fd.content :=
        applyMappings_of_no_match cm fd.content hfd
      by_cases hk : (contentRootKeep working oa cm root && extOk name) = true
      · simp only [updTree, hk, if_true]
        rw [processFileData_no_change cm dry fd hnc, ihr root hrest]
        rfl
      · simp only [updTree, hk, if_false]
        rw [ihr root hrest]
        rfl
    | dnil =>
      simp only [updTree]
      rw [ihr root hrest]
      rfl
    | dcons n2 c2 r2 =>
      have hsub : ∀ x ∈ (Entry.dcons n2 c2 r2).allFilesChain (root ++ [name]),
          ∀ kv ∈ cm, hasMatchWB kv.1 x.2.content = false := by
        intro x hx
        refine h x ?_
        simp only [Entry.allFilesChain, List.mem_append]
        exact Or.inl hx
      simp only [updTree]
      rw [ihc (root ++ [name]) hsub, ihr root hrest]
      rfl

theorem update_file_contents_fixed (st : GState) (cm : List (String × String)) (oa : Option String)
    (H : ∀ x ∈ workingFiles st, ∀ kv ∈ cm, hasMatchWB kv.1 x.2.content = false) :
    update_file_contents st cm oa = (st, []) := by
  unfold update_file_contents
  rcases hg : st.parentChildren.getChild st.workingName with _ | tree0
  · rfl
  · dsimp only
    have hwf : workingFiles st = tree0.allFilesChain [] := by
      unfold workingFiles
      rw [hg]
    rw [hwf] at H
    have H2 : ∀ x ∈ tree0.allFilesChain (st.parentPath ++ [st.workingName]), ∀ kv ∈ cm,
        hasMatchWB kv.1 x.2.content = false := by
      intro x hx kv hkv
      have hmap : x.2 ∈ (tree0.allFilesChain (st.parentPath ++ [st.workingName])).map Prod.snd :=
        List.mem_map_of_mem Prod.snd hx
      rw [allFilesChain_snd tree0 (st.parentPath ++ [st.workingName]) []] at hmap
      rcases List.mem_map.mp hmap with ⟨y, hy, hyx⟩
      rw [← hyx]
      exact H y hy kv hkv
    rw [updTree_no_match (st.parentPath ++ [st.workingName]) oa cm st.dryRun tree0
      (st.parentPath ++ [st.workingName]) H2]
    dsimp only
    rw [setChild_self_state st tree0 hg]
    rfl

/-- C8: the content-rewrite pass is idempotent modulo the chaining edge
case: if, after one pass, no mapping key still matches - case-insensitively
at word boundaries - any file text of the working tree (in particular no
key re-matches text produced by the replacement values), then running the
pass a second time with the same mapping changes no file and reports zero
updated files. -/
theorem content_rewrite_idempotent (st : GState) (cm : List (String × String))
    (oa : Option String)
    (H : ∀ x ∈ workingFiles (update_file_contents st cm oa).1, ∀ kv ∈ cm,
        hasMatchWB kv.1 x.2.content = false) :
    update_file_contents (update_file_contents st cm oa).1 cm oa =
      ((update_file_contents st cm oa).1, []) :=
  update_file_contents_fixed (update_file_contents st cm oa).1 cm oa H

/-- Witness for C8: one pass over a one-file tree rewrites Old to New,
after which no key matches, so the second pass reports no updates. -/
theorem content_rewrite_idempotent_witness :
    (∀ x ∈ workingFiles (update_file_contents
        { parentPath := [], origName := "W", workingName := "W", dryRun := false,
          parentChildren := .dcons "W"
            (.dcons "a.txt" (.file { content := "Old stuff" }) .dnil) .dnil }
        [("Old", "New")] none).1, ∀ kv ∈ [("Old", "New")],
      hasMatchWB kv.1 x.2.content = false) ∧
    update_file_contents (update_file_contents
        { parentPath := [], origName := "W", workingName := "W", dryRun := false,
          parentChildren := .dcons "W"
            (.dcons "a.txt" (.file { content := "Old stuff" }) .dnil) .dnil }
        [("Old", "New")] none).1 [("Old", "New")] none =
      ((update_file_contents
        { parentPath := [], origName := "W", workingName := "W", dryRun := false,
          parentChildren := .dcons "W"
            (.dcons "a.txt" (.file { content := "Old stuff" }) .dnil) .dnil }
        [("Old", "New")] none).1, []) :=
  ⟨by decide, content_rewrite_idempotent
    { parentPath := [], origName := "W", workingName := "W", dryRun := false,
      parentChildren := .dcons "W"
        (.dcons "a.txt" (.file { content := "Old stuff" }) .dnil) .dnil }
    [("Old", "New")] none (by decide)⟩

/-! ## Claim C9: per-file characterization of update_file_contents -/

theorem getChild_setChild_self (e : Entry) (k : String) (v w : Entry)
    (h : e.getChild k = some w) : (e.setChild k v).getChild k = some v := by
  induction e with
  | file fd => simp [Entry.getChild] at h
  | dnil => simp [Entry.getChild] at h
  | dcons m c rest ihc ihr =>
    by_cases hmk : m = k
    · subst hmk
      simp [Entry.setChild, Entry.getChild]
    · simp only [Entry.getChild, hmk, if_false] at h
      simp [Entry.setChild, hmk, Entry.getChild, ihr h]

theorem fileAtPath_cons_eq (n : String) (c r : Entry) (qs : List String) :
    (Entry.dcons n c r).fileAtPath (n :: qs) = c.fileAtPath qs := by
  simp [Entry.fileAtPath, Entry.getAtPath, Entry.getChild]

theorem fileAtPath_cons_ne (n : String) (c r : Entry) (q : String) (qs : List String)
    (h : n ≠ q) :
    (Entry.dcons n c r).fileAtPath (q :: qs) = r.fileAtPath (q :: qs) := by
  simp [Entry.fileAtPath, Entry.getAtPath, Entry.getChild, h]

theorem fileAtPath_file_cons (fd : FileData) (q : String) (qs : List String) :
    (Entry.file fd).fileAtPath (q :: qs) = none := by
  simp [Entry.fileAtPath, Entry.getAtPath, Entry.getChild]

theorem fileAtPath_dnil_cons (q : String) (qs : List String) :
    Entry.dnil.fileAtPath (q :: qs) = none := by
  simp [Entry.fileAtPath, Entry.getAtPath, Entry.getChild]

theorem updTree_upds_names (working : List String) (oa : Option String)
    (cm : List (String × String)) (dry : Bool) :
    ∀ (e : Entry) (R : List String) (q : List String),
      (q ∈ (updTree working oa cm dry R e).2.1 ∨ q ∈ (updTree working oa cm dry R e).2.2) →
      ∃ m t, m ∈ e.chainNames ∧ q = R ++ m :: t := by
  intro e
  induction e with
  | file fd =>
    intro R q hq
    simp [updTree] at hq
  | dnil =>
    intro R q hq
    simp [updTree] at hq
  | dcons name child rest ihc ihr =>
    intro R q hq
    cases child with
    | file fd =>
      by_cases hk : (contentRootKeep working oa cm R && extOk name) = true
      · simp only [updTree, hk, if_true] at hq
        rcases hq with hq | hq
        · rcases List.mem_append.mp hq with hq | hq
          · by_cases hflag : (processFileData cm dry fd).2 = true
            · simp only [hflag, if_true, List.mem_singleton] at hq
              exact ⟨name, [], by simp [Entry.chainNames], hq⟩
            · simp only [Bool.not_eq_true] at hflag
              simp [hflag] at hq
          · rcases ihr R q (Or.inl hq) with ⟨m, t, hm, he⟩
            exact ⟨m, t, by simp [Entry.chainNames, hm], he⟩
        · rcases ihr R q (Or.inr hq) with ⟨m, t, hm, he⟩
          exact ⟨m, t, by simp [Entry.chainNames, hm], he⟩
      · simp only [updTree, hk, if_false] at hq
        rcases hq with hq | hq
        · rcases ihr R q (Or.inl hq) with ⟨m, t, hm, he⟩
          exact ⟨m, t, by simp [Entry.chainNames, hm], he⟩
        · rcases ihr R q (Or.inr hq) with ⟨m, t, hm, he⟩
          exact ⟨m, t, by simp [Entry.chainNames, hm], he⟩
    | dnil =>
      simp only [updTree] at hq
      rcases hq with hq | hq
      · rcases ihr R q (Or.inl hq) with ⟨m, t, hm, he⟩
        exact ⟨m, t, by simp [Entry.chainNames, hm], he⟩
      · rcases List.mem_append.mp hq with hq | hq
        · rcases List.mem_append.mp hq with hq | hq
          · exact absurd hq (by simp [updTree])
          · exact absurd hq (by simp [updTree])
        · rcases ihr R q (Or.inr hq) with ⟨m, t, hm, he⟩
          exact ⟨m, t, by simp [Entry.chainNames, hm], he⟩
    | dcons n2 c2 r2 =>
      simp only [updTree] at hq
      rcases hq with hq | hq
      · rcases ihr R q (Or.inl hq) with ⟨m, t, hm, he⟩
        exact ⟨m, t, by simp [Entry.chainNames, hm], he⟩
      · rcases List.mem_append.mp hq with hq | hq
        · have hsub : q ∈ (updTree working oa cm dry (R ++ [name]) (Entry.dcons n2 c2 r2)).2.1 ∨
              q ∈ (updTree working oa cm dry (R ++ [name]) (Entry.dcons n2 c2 r2)).2.2 :=
            List.mem_append.mp hq |>.imp id id
          rcases ihc (R ++ [name]) q hsub with ⟨m2, t2, _, he⟩
          refine ⟨name, m2 :: t2, by simp [Entry.chainNames], ?_⟩
          rw [he]
          simp
        · rcases ihr R q (Or.inr hq) with ⟨m, t, hm, he⟩
          exact ⟨m, t, by simp [Entry.chainNames, hm], he⟩

theorem append_cons_inj (R : List String) (a m : String) (s t : List String)
    (h : R ++ a :: s = R ++ m :: t) : a = m ∧ s = t :=
  List.cons.inj (List.append_cancel_left h)

theorem not_mem_updTree_parts (working : List String) (oa : Option String)
    (cm : List (String × String)) (dry : Bool) (e : Entry) (R : List String) (a : String)
    (t : List String) (ha : a ∉ e.chainNames) :
    (R ++ a :: t) ∉ (updTree working oa cm dry R e).2.1 ++
      (updTree working oa cm dry R e).2.2 := by
  intro hmem
  rcases updTree_upds_names working oa cm dry e R _ (List.mem_append.mp hmem) with ⟨m, t2, hm, he⟩
  rcases append_cons_inj R a m t t2 he with ⟨h1, _⟩
  exact ha (h1 ▸ hm)

theorem updTree_chain_cons (working : List String) (oa : Option String)
    (cm : List (String × String)) (dry : Bool) (R : List String) (name : String)
    (child rest : Entry) :
    ∃ X, (updTree working oa cm dry R (Entry.dcons name child rest)).1 =
      Entry.dcons name X ((updTree working oa cm dry R rest).1) := by
  cases child with
  | file fd =>
    by_cases hk : (contentRootKeep working oa cm R && extOk name) = true
    · refine ⟨Entry.file (processFileData cm dry fd).1, ?_⟩
      simp only [updTree]
      rw [if_pos hk]
    · refine ⟨Entry.file fd, ?_⟩
      simp only [updTree]
      rw [if_neg hk]
  | dnil => exact ⟨Entry.dnil, by simp [updTree]⟩
  | dcons n2 c2 r2 =>
    exact ⟨(updTree working oa cm dry (R ++ [name]) (Entry.dcons n2 c2 r2)).1, by simp [updTree]⟩

theorem updTree_mem_cons_ne (working : List String) (oa : Option String)
    (cm : List (String × String)) (dry : Bool) (R : List String) (name : String)
    (child rest : Entry) (a : String) (t : List String) (ha : a ≠ name) :
    ((R ++ a :: t) ∈ (updTree working oa cm dry R (Entry.dcons name child rest)).2.1 ++
        (updTree working oa cm dry R (Entry.dcons name child rest)).2.2) ↔
    ((R ++ a :: t) ∈ (updTree working oa cm dry R rest).2.1 ++
        (updTree working oa cm dry R rest).2.2) := by
  cases child with
  | file fd =>
    by_cases hk : (contentRootKeep working oa cm R && extOk name) = true
    · simp only [updTree]
      rw [if_pos hk]
      constructor
      · intro hmem
        rcases List.mem_append.mp hmem with hmem | hmem
        · rcases List.mem_append.mp hmem with hmem | hmem
          · by_cases hflag : (processFileData cm dry fd).2 = true
            · simp only [hflag, if_true, List.mem_singleton] at hmem
              rcases append_cons_inj R a name t [] hmem with ⟨h1, _⟩
              exact absurd h1 ha
            · simp only [Bool.not_eq_true] at hflag
              simp [hflag] at hmem
          · exact List.mem_append_left _ hmem
        · exact List.mem_append_right _ hmem
      · intro hmem
        rcases List.mem_append.mp hmem with hmem | hmem
        · exact List.mem_append_left _ (List.mem_append_right _ hmem)
        · exact List.mem_append_right _ hmem
    · simp only [updTree]
      rw [if_neg hk]
  | dnil =>
    simp only [updTree]
    constructor
    · intro hmem
      rcases List.mem_append.mp hmem with hmem | hmem
      · exact List.mem_append_left _ hmem
      · rcases List.mem_append.mp hmem with hmem | hmem
        · rcases List.mem_append.mp hmem with hmem | hmem
          · exact absurd hmem (by simp [updTree])
          · exact absurd hmem (by simp [updTree])
        · exact List.mem_append_right _ hmem
    · intro hmem
      rcases List.mem_append.mp hmem with hmem | hmem
      · exact List.mem_append_left _ hmem
      · exact List.mem_append_right _ (List.mem_append_right _ hmem)
  | dcons n2 c2 r2 =>
    simp only [updTree]
    constructor
    · intro hmem
      rcases List.mem_append.mp hmem with hmem | hmem
      · exact List.mem_append_left _ hmem
      · rcases List.mem_append.mp hmem with hmem | hmem
        · exfalso
          rcases updTree_upds_names working oa cm dry (Entry.dcons n2 c2 r2) (R ++ [name]) _
              (List.mem_append.mp hmem) with ⟨m, t2, _, he⟩
          rw [List.append_assoc] at he
          rcases append_cons_inj R a name t (m :: t2) (by simpa using he) with ⟨h1, _⟩
          exact ha h1
        · exact List.mem_append_right _ hmem
    · intro hmem
      rcases List.mem_append.mp hmem with hmem | hmem
      · exact List.mem_append_left _ hmem
      · exact List.mem_append_right _ (List.mem_append_right _ hmem)

theorem updTree_mem_cons_file (working : List String) (oa : Option String)
    (cm : List (String × String)) (dry : Bool) (R : List String) (name : String)
    (fd : FileData) (rest : Entry) (hn1 : name ∉ rest.chainNames) :
    ((R ++ [name]) ∈ (updTree working oa cm dry R (Entry.dcons name (.file fd) rest)).2.1 ++
        (updTree working oa cm dry R (Entry.dcons name (.file fd) rest)).2.2) ↔
    ((contentRootKeep working oa cm R && extOk name) && (processFileData cm dry fd).2) = true := by
  by_cases hk : (contentRootKeep working oa cm R && extOk name) = true
  · simp only [updTree]
    rw [if_pos hk]
    constructor
    · intro hmem
      rcases List.mem_append.mp hmem with hmem | hmem
      · rcases List.mem_append.mp hmem with hmem | hmem
        · by_cases hflag : (processFileData cm dry fd).2 = true
          · simp [hk, hflag]
          · simp only [Bool.not_eq_true] at hflag
            simp [hflag] at hmem
        · exact absurd (List.mem_append_left _ hmem)
            (not_mem_updTree_parts working oa cm dry rest R name [] hn1)
      · exact absurd (List.mem_append_right _ hmem)
          (not_mem_updTree_parts working oa cm dry rest R name [] hn1)
    · intro hflag
      rw [Bool.and_eq_true] at hflag
      apply List.mem_append_left
      apply List.mem_append_left
      simp [hflag.2]
  · simp only [updTree]
    rw [if_neg hk]
    constructor
    · intro hmem
      exact absurd hmem (not_mem_updTree_parts working oa cm dry rest R name [] hn1)
    · intro hflag
      rw [Bool.and_eq_true] at hflag
      exact absurd hflag.1 hk

theorem updTree_mem_cons_into (working : List String) (oa : Option String)
    (cm : List (String × String)) (dry : Bool) (R : List String) (name : String)
    (child rest : Entry) (t : List String) (hd : child.isDirE = true)
    (hn1 : name ∉ rest.chainNames) :
    ((R ++ name :: t) ∈ (updTree working oa cm dry R (Entry.dcons name child rest)).2.1 ++
        (updTree working oa cm dry R (Entry.dcons name child rest)).2.2) ↔
    ((R ++ name :: t) ∈ (updTree working oa cm dry (R ++ [name]) child).2.1 ++
        (updTree working oa cm dry (R ++ [name]) child).2.2) := by
  cases child with
  | file fd => simp [Entry.isDirE] at hd
  | dnil =>
    simp only [updTree]
    constructor
    · intro hmem
      exfalso
      rcases List.mem_append.mp hmem with hmem | hmem
      · exact not_mem_updTree_parts working oa cm dry rest R name t hn1
          (List.mem_append_left _ hmem)
      · rcases List.mem_append.mp hmem with hmem | hmem
        · rcases List.mem_append.mp hmem with hmem | hmem
          · exact absurd hmem (by simp [updTree])
          · exact absurd hmem (by simp [updTree])
        · exact not_mem_updTree_parts working oa cm dry rest R name t hn1
            (List.mem_append_right _ hmem)
    · intro hmem
      exfalso
      rcases List.mem_append.mp hmem with hmem | hmem
      · exact absurd hmem (by simp [updTree])
      · exact absurd hmem (by simp [updTree])
  | dcons n2 c2 r2 =>
    simp only [updTree]
    constructor
    · intro hmem
      rcases List.mem_append.mp hmem with hmem | hmem
      · exact absurd (List.mem_append_left _ hmem)
          (not_mem_updTree_parts working oa cm dry rest R name t hn1)
      · rcases List.mem_append.mp hmem with hmem | hmem
        · exact hmem
        · exact absurd (List.mem_append_right _ hmem)
            (not_mem_updTree_parts working oa cm dry rest R name t hn1)
    · intro hmem
      exact List.mem_append_right _ (List.mem_append_left _ hmem)

theorem updTree_fileAt (working : List String) (oa : Option String)
    (cm : List (String × String)) (dry : Bool) :
    ∀ (e : Entry) (p R : List String) (nm : String) (fd : FileData),
      e.chainNodup = true →
      e.fileAtPath (p ++ [nm]) = some fd →
      ((updTree working oa cm dry R e).1.fileAtPath (p ++ [nm]) =
          some (if contentRootKeep working oa cm (R ++ p) && extOk nm then
            (processFileData cm dry fd).1 else fd)) ∧
      ((R ++ p ++ [nm]) ∈ (updTree working oa cm dry R e).2.1 ++
          (updTree working oa cm dry R e).2.2 ↔
        (contentRootKeep working oa cm (R ++ p) && extOk nm &&
          (processFileData cm dry fd).2) = true) := by
  intro e
  induction e with
  | file fd2 =>
    intro p R nm fd _ hf
    cases p with
    | nil => rw [List.nil_append, fileAtPath_file_cons] at hf; cases hf
    | cons a as => rw [List.cons_append, fileAtPath_file_cons] at hf; cases hf
  | dnil =>
    intro p R nm fd _ hf
    cases p with
    | nil => rw [List.nil_append, fileAtPath_dnil_cons] at hf; cases hf
    | cons a as => rw [List.cons_append, fileAtPath_dnil_cons] at hf; cases hf
  | dcons name child rest ihc ihr =>
    intro p R nm fd hnd hf
    have hnd2 := hnd
    simp only [Entry.chainNodup, Bool.and_eq_true] at hnd2
    have hndc : child.chainNodup = true := hnd2.1.2
    have hndr : rest.chainNodup = true := hnd2.2
    have hn1 : name ∉ rest.chainNames := by
      intro hmem
      have hx : rest.chainNames.contains name = true := List.elem_iff.mpr hmem
      have hc := hnd2.1.1
      rw [hx] at hc
      simp at hc
    cases p with
    | nil =>
      simp only [List.nil_append, List.append_nil] at hf ⊢
      by_cases hname : name = nm
      · subst hname
        rw [fileAtPath_cons_eq] at hf
        cases child with
        | dnil => simp [Entry.fileAtPath, Entry.getAtPath] at hf
        | dcons a b c => simp [Entry.fileAtPath, Entry.getAtPath] at hf
        | file fd2 =>
          have hfd2 : fd2 = fd := by
            simpa [Entry.fileAtPath, Entry.getAtPath] using hf
          subst hfd2
          constructor
          · by_cases hk : (contentRootKeep working oa cm R && extOk name) = true
            · simp only [updTree]
              rw [if_pos hk, fileAtPath_cons_eq, if_pos hk]
              simp [Entry.fileAtPath, Entry.getAtPath]
            · simp only [updTree]
              rw [if_neg hk, fileAtPath_cons_eq, if_neg hk]
              simp [Entry.fileAtPath, Entry.getAtPath]
          · exact updTree_mem_cons_file working oa cm dry R name fd2 rest hn1
      · rw [fileAtPath_cons_ne name child rest nm [] hname] at hf
        obtain ⟨ih1, ih2⟩ := ihr [] R nm fd hndr hf
        simp only [List.nil_append, List.append_nil] at ih1 ih2
        constructor
        · obtain ⟨X, hX⟩ := updTree_chain_cons working oa cm dry R name child rest
          rw [hX, fileAtPath_cons_ne name X _ nm [] hname]
          exact ih1
        · rw [updTree_mem_cons_ne working oa cm dry R name child rest nm []
            (fun h => hname h.symm)]
          exact ih2
    | cons m p' =>
      simp only [List.cons_append, List.append_assoc, List.singleton_append] at hf ⊢
      by_cases hname : name = m
      · subst hname
        rw [fileAtPath_cons_eq] at hf
        cases child with
        | file fd2 =>
          cases p' with
          | nil => rw [List.nil_append, fileAtPath_file_cons] at hf; cases hf
          | cons a as => rw [List.cons_append, fileAtPath_file_cons] at hf; cases hf
        | dnil =>
          cases p' with
          | nil => rw [List.nil_append, fileAtPath_dnil_cons] at hf; cases hf
          | cons a as => rw [List.cons_append, fileAtPath_dnil_cons] at hf; cases hf
        | dcons n2 c2 r2 =>
          obtain ⟨ih1, ih2⟩ := ihc p' (R ++ [name]) nm fd hndc hf
          constructor
          · simp only [updTree]
            rw [fileAtPath_cons_eq, ih1]
            simp [List.append_assoc]
          · rw [updTree_mem_cons_into working oa cm dry R name (Entry.dcons n2 c2 r2) rest
              (p' ++ [nm]) (by simp [Entry.isDirE]) hn1]
            simpa [List.append_assoc, List.singleton_append] using ih2
      · rw [fileAtPath_cons_ne name child rest m (p' ++ [nm]) hname] at hf
        obtain ⟨ih1, ih2⟩ := ihr (m :: p') R nm fd hndr hf
        simp only [List.cons_append, List.append_assoc, List.singleton_append] at ih1 ih2
        constructor
        · obtain ⟨X, hX⟩ := updTree_chain_cons working oa cm dry R name child rest
          rw [hX, fileAtPath_cons_ne name X _ m (p' ++ [nm]) hname]
          exact ih1
        · rw [updTree_mem_cons_ne working oa cm dry R name child rest m (p' ++ [nm])
            (fun h => hname h.symm)]
          exact ih2

/-- C9: update_file_contents processes files pointwise and isolates
per-file failures: for every file of the working tree, the pass leaves
exactly the per-file result processFileData (which returns the file
unchanged and unreported whenever its read raises, and also when its
write raises), the updated-files list contains the file's path exactly
when its per-file flag is set, and a file whose read fails is skipped
unchanged - the pass always completes, never aborting on any file. -/
theorem per_file_failure_isolated (st : GState) (cm : List (String × String))
    (oa : Option String) (tree0 : Entry) (p : List String) (nm : String) (fd : FileData)
    (hg : st.parentChildren.getChild st.workingName = some tree0)
    (hnd : tree0.chainNodup = true)
    (hf : tree0.fileAtPath (p ++ [nm]) = some fd) :
    (fileAtWorking (update_file_contents st cm oa).1 (p ++ [nm]) =
        some (if contentRootKeep (st.parentPath ++ [st.workingName]) oa cm
            ((st.parentPath ++ [st.workingName]) ++ p) && extOk nm then
          (processFileData cm st.dryRun fd).1 else fd)) ∧
    (((st.parentPath ++ [st.workingName]) ++ p ++ [nm]) ∈ (update_file_contents st cm oa).2 ↔
        (contentRootKeep (st.parentPath ++ [st.workingName]) oa cm
            ((st.parentPath ++ [st.workingName]) ++ p) && extOk nm &&
          (processFileData cm st.dryRun fd).2) = true) ∧
    (fd.readOk = false → processFileData cm st.dryRun fd = (fd, false)) := by
  obtain ⟨h1, h2⟩ := updTree_fileAt (st.parentPath ++ [st.workingName]) oa cm st.dryRun tree0 p
    (st.parentPath ++ [st.workingName]) nm fd hnd hf
  refine ⟨?_, ?_, ?_⟩
  · unfold fileAtWorking update_file_contents
    rw [hg]
    dsimp only
    rw [getChild_setChild_self _ _ _ _ hg]
    exact h1
  · unfold update_file_contents
    rw [hg]
    dsimp only
    exact h2
  · intro hr
    simp [processFileData, hr]

/-- Witness for C9: a working tree holding one unreadable file; the pass
leaves it unchanged and does not report it. -/
theorem per_file_failure_isolated_witness :
    (({ parentPath := [], origName := "W", workingName := "W", dryRun := false,
        parentChildren := Entry.dcons "W"
          (.dcons "bad.lua" (.file { content := "Old x", readOk := false, writeOk := true })
            .dnil) .dnil } : GState).parentChildren.getChild "W" =
      some (.dcons "bad.lua" (.file { content := "Old x", readOk := false, writeOk := true })
        .dnil)) ∧
    ((Entry.dcons "bad.lua" (.file { content := "Old x", readOk := false, writeOk := true })
        .dnil).chainNodup = true) ∧
    ((Entry.dcons "bad.lua" (.file { content := "Old x", readOk := false, writeOk := true })
        .dnil).fileAtPath ([] ++ ["bad.lua"]) =
      some { content := "Old x", readOk := false, writeOk := true }) ∧
    (({ content := "Old x", readOk := false, writeOk := true } : FileData).readOk = false →
      processFileData [("Old", "New")] false
        { content := "Old x", readOk := false, writeOk := true } =
        ({ content := "Old x", readOk := false, writeOk := true }, false)) :=
  ⟨by decide, by decide, by decide,
    (per_file_failure_isolated
      { parentPath := [], origName := "W", workingName := "W", dryRun := false,
        parentChildren := Entry.dcons "W"
          (.dcons "bad.lua" (.file { content := "Old x", readOk := false, writeOk := true })
            .dnil) .dnil }
      [("Old", "New")] none
      (.dcons "bad.lua" (.file { content := "Old x", readOk := false, writeOk := true }) .dnil)
      [] "bad.lua" { content := "Old x", readOk := false, writeOk := true }
      (by decide) (by decide) (by decide)).2.2⟩

/-! ## Claim C2: merge backups -/

theorem strAppend_right_cancel (m n s : String) (h : m ++ s = n ++ s) : m = n := by
  have h2 := congrArg String.data h
  rw [String.data_append, String.data_append] at h2
  have h3 := List.append_cancel_right h2
  cases m with
  | mk d1 =>
  cases n with
  | mk d2 =>
  simp only at h3
  rw [h3]

theorem backupName_ne_self (n : String) (t : Nat) : n ++ ".backup_" ++ toString t ≠ n := by
  intro h
  have hl := congrArg String.length h
  rw [String.length_append, String.length_append] at hl
  have h8 : (".backup_" : String).length = 8 := rfl
  omega

theorem backupName_inj (m n : String) (t : Nat)
    (h : m ++ ".backup_" ++ toString t = n ++ ".backup_" ++ toString t) : m = n :=
  strAppend_right_cancel m n ".backup_"
    (strAppend_right_cancel (m ++ ".backup_") (n ++ ".backup_") (toString t) h)

theorem chainNodup_setChild (e : Entry) (k : String) (v : Entry)
    (he : e.chainNodup = true) (hv : v.chainNodup = true)
    (hmem : (e.getChild k).isSome = true) : (e.setChild k v).chainNodup = true := by
  induction e with
  | file fd => simp [Entry.getChild] at hmem
  | dnil => simp [Entry.getChild] at hmem
  | dcons n c rest ihc ihr =>
    simp only [Entry.chainNodup, Bool.and_eq_true] at he
    obtain ⟨⟨h1, h2⟩, h3⟩ := he
    have hnm : n ∉ rest.chainNames := by simpa using h1
    by_cases hnk : n = k
    · simp only [Entry.setChild, if_pos hnk]
      simp [Entry.chainNodup, hnm, hv, h3]
    · have hmem' : (rest.getChild k).isSome = true := by
        simpa [Entry.getChild, hnk] using hmem
      simp only [Entry.setChild, if_neg hnk]
      simp only [Entry.chainNodup, Bool.and_eq_true]
      refine ⟨⟨?_, h2⟩, ihr h3 hmem'⟩
      rw [chainNames_setChild_of_mem rest k v hmem']
      exact h1

theorem chainNodup_appendChild (e : Entry) (k : String) (v : Entry)
    (hd : e.isDirE = true) (hwf : e.wfTree = true)
    (he : e.chainNodup = true) (hv : v.chainNodup = true)
    (h : e.getChild k = none) : (e.appendChild k v).chainNodup = true := by
  induction e with
  | file fd => simp [Entry.isDirE] at hd
  | dnil => simp [Entry.appendChild, Entry.chainNodup, Entry.chainNames, hv]
  | dcons n c rest ihc ihr =>
    simp only [Entry.chainNodup, Bool.and_eq_true] at he
    obtain ⟨⟨h1, h2⟩, h3⟩ := he
    simp only [Entry.wfTree, Bool.and_eq_true] at hwf
    obtain ⟨⟨hcw, hrd⟩, hrw⟩ := hwf
    have hne : ¬(n = k) := by
      intro hnk
      simp [Entry.getChild, hnk] at h
    have hrk : rest.getChild k = none := by
      simpa [Entry.getChild, hne] using h
    have hnm : n ∉ rest.chainNames := by simpa using h1
    simp only [Entry.appendChild, Entry.chainNodup, Bool.and_eq_true]
    refine ⟨⟨?_, h2⟩, ihr hrd hrw h3 hrk⟩
    rw [chainNames_appendChild rest k v hrd hrw]
    simp [hnm, hne]

theorem chainNodup_removeChild (e : Entry) (k : String) (he : e.chainNodup = true) :
    (e.removeChild k).chainNodup = true := by
  induction e with
  | file fd => simpa [Entry.removeChild] using he
  | dnil => simpa [Entry.removeChild] using he
  | dcons n c rest ihc ihr =>
    simp only [Entry.chainNodup, Bool.and_eq_true] at he
    obtain ⟨⟨h1, h2⟩, h3⟩ := he
    have hnm : n ∉ rest.chainNames := by simpa using h1
    by_cases hnk : n = k
    · simpa [Entry.removeChild, hnk] using h3
    · simp only [Entry.removeChild, if_neg hnk]
      simp only [Entry.chainNodup, Bool.and_eq_true]
      refine ⟨⟨?_, h2⟩, ihr h3⟩
      have hsub := (names_removeChild_sublist rest k).subset
      have hnm2 : n ∉ (rest.removeChild k).chainNames := fun hm => hnm (hsub hm)
      simp [hnm2]

/-- The plain-rename branch of shutil.move: the destination name is free. -/
theorem shutilMoveChild_to_free (cs : Entry) (a b : String) (node : Entry)
    (hga : cs.getChild a = some node) (hgb : cs.getChild b = none) :
    shutilMoveChild cs a b = .ok ((cs.removeChild a).appendChild b node) := by
  unfold shutilMoveChild
  rw [hga, hgb]

/-- Missing source child: shutil.move raises FileNotFoundError. -/
theorem shutilMoveChild_no_src (cs : Entry) (a b : String)
    (hga : cs.getChild a = none) :
    shutilMoveChild cs a b = .error .fileNotFound := by
  unfold shutilMoveChild
  rw [hga]

/-- os.rename-overwrite branch of shutil.move: the destination is an
existing file and the moved node is a file; the destination file's
content is silently replaced. -/
theorem shutilMoveChild_over_file (cs : Entry) (a b : String) (node : Entry) (fdb : FileData)
    (hga : cs.getChild a = some node) (hgb : cs.getChild b = some (.file fdb))
    (hnd : node.isDirE = false) :
    shutilMoveChild cs a b = .ok ((cs.removeChild a).setChild b node) := by
  unfold shutilMoveChild
  rw [hga, hgb]
  dsimp only
  rw [hnd]
  rfl

theorem shutilMoveChild_over_file_dir (cs : Entry) (a b : String) (node : Entry) (fdb : FileData)
    (hga : cs.getChild a = some node) (hgb : cs.getChild b = some (.file fdb))
    (hnd : node.isDirE = true) :
    shutilMoveChild cs a b = .error .osError := by
  unfold shutilMoveChild
  rw [hga, hgb]
  dsimp only
  rw [hnd]
  rfl

/-- Move-into-directory branch of shutil.move. -/
theorem shutilMoveChild_into_dir (cs : Entry) (a b : String) (node d : Entry)
    (hga : cs.getChild a = some node) (hgb : cs.getChild b = some d)
    (hdd : d.isDirE = true) (hhc : d.hasChild a = false) :
    shutilMoveChild cs a b = .ok ((cs.removeChild a).setChild b (d.appendChild a node)) := by
  cases d with
  | file fd => simp [Entry.isDirE] at hdd
  | dnil =>
    unfold shutilMoveChild
    rw [hga, hgb]
    dsimp only
    rw [hhc]
    rfl
  | dcons dn dc dr =>
    unfold shutilMoveChild
    rw [hga, hgb]
    dsimp only
    rw [hhc]
    rfl

theorem shutilMoveChild_into_dir_conflict (cs : Entry) (a b : String) (node d : Entry)
    (hga : cs.getChild a = some node) (hgb : cs.getChild b = some d)
    (hdd : d.isDirE = true) (hhc : d.hasChild a = true) :
    shutilMoveChild cs a b = .error .shutilError := by
  cases d with
  | file fd => simp [Entry.isDirE] at hdd
  | dnil =>
    unfold shutilMoveChild
    rw [hga, hgb]
    dsimp only
    rw [hhc]
    rfl
  | dcons dn dc dr =>
    unfold shutilMoveChild
    rw [hga, hgb]
    dsimp only
    rw [hhc]
    rfl

theorem hasChild_false_getChild (e : Entry) (k : String) (h : e.hasChild k = false) :
    e.getChild k = none := by
  rcases hq : e.getChild k with _ | w
  · rfl
  · simp [Entry.hasChild, hq] at h

/-- shutil.move never touches a child whose name is neither the source
nor the destination name. -/
theorem shutilMoveChild_getChild_ne (cs : Entry) (a b k : String) (cs' : Entry)
    (h : shutilMoveChild cs a b = .ok cs')
    (hka : k ≠ a) (hkb : k ≠ b) :
    cs'.getChild k = cs.getChild k := by
  rcases hga : cs.getChild a with _ | node
  · rw [shutilMoveChild_no_src cs a b hga] at h
    cases h
  · rcases hgb : cs.getChild b with _ | d
    · rw [shutilMoveChild_to_free cs a b node hga hgb] at h
      cases h
      rw [getChild_appendChild_ne _ _ _ _ hkb, getChild_removeChild_ne _ _ _ hka]
    · cases d with
      | file fdb =>
        cases hndir : node.isDirE
        · rw [shutilMoveChild_over_file cs a b node fdb hga hgb hndir] at h
          cases h
          rw [getChild_setChild_ne _ _ _ _ hkb, getChild_removeChild_ne _ _ _ hka]
        · rw [shutilMoveChild_over_file_dir cs a b node fdb hga hgb hndir] at h
          cases h
      | dnil =>
        cases hhc : Entry.hasChild .dnil a
        · rw [shutilMoveChild_into_dir cs a b node .dnil hga hgb rfl hhc] at h
          cases h
          rw [getChild_setChild_ne _ _ _ _ hkb, getChild_removeChild_ne _ _ _ hka]
        · rw [shutilMoveChild_into_dir_conflict cs a b node .dnil hga hgb rfl hhc] at h
          cases h
      | dcons dn dc dr =>
        cases hhc : Entry.hasChild (.dcons dn dc dr) a
        · rw [shutilMoveChild_into_dir cs a b node (.dcons dn dc dr) hga hgb rfl hhc] at h
          cases h
          rw [getChild_setChild_ne _ _ _ _ hkb, getChild_removeChild_ne _ _ _ hka]
        · rw [shutilMoveChild_into_dir_conflict cs a b node (.dcons dn dc dr) hga hgb rfl hhc] at h
          cases h

/-- The structural invariants preserved by the move-into-directory
branch of shutil.move. -/
theorem moveIntoDir_props (cs : Entry) (a b : String) (node d : Entry)
    (hd : cs.isDirE = true) (hw : cs.wfTree = true) (hn : cs.chainNodup = true)
    (hab : a ≠ b)
    (hga : cs.getChild a = some node) (hgb : cs.getChild b = some d)
    (hdd : d.isDirE = true) (hgda : d.getChild a = none) :
    ((cs.removeChild a).setChild b (d.appendChild a node)).isDirE = true ∧
    ((cs.removeChild a).setChild b (d.appendChild a node)).wfTree = true ∧
    ((cs.removeChild a).setChild b (d.appendChild a node)).chainNodup = true ∧
    ((cs.removeChild a).setChild b (d.appendChild a node)).getChild a = none := by
  have hnames := chainNodup_names cs hn
  have hnodew : node.wfTree = true := wfTree_getChild cs a node hga hw
  have hnoden : node.chainNodup = true := chainNodup_getChild cs a node hga hn
  have hdw : d.wfTree = true := wfTree_getChild cs b d hgb hw
  have hdn : d.chainNodup = true := chainNodup_getChild cs b d hgb hn
  refine ⟨?_, ?_, ?_, ?_⟩
  · rw [isDirE_setChild, isDirE_removeChild _ _ hw]
    exact hd
  · exact wfTree_setChild _ _ _ (wfTree_removeChild _ _ hw)
      (wfTree_appendChild _ _ _ hdw hnodew)
  · refine chainNodup_setChild _ _ _ (chainNodup_removeChild _ _ hn) ?_ ?_
    · exact chainNodup_appendChild _ _ _ hdd hdw hdn hnoden hgda
    · rw [getChild_removeChild_ne _ _ _ (Ne.symm hab), hgb]
      rfl
  · rw [getChild_setChild_ne _ _ _ _ hab]
    exact getChild_removeChild_self _ _ hnames

/-- A successful shutil.move inside a well-formed directory chain keeps
it a well-formed directory chain with distinct names, and frees the
source name. -/
theorem shutilMoveChild_props (cs : Entry) (a b : String) (cs' : Entry)
    (h : shutilMoveChild cs a b = .ok cs')
    (hd : cs.isDirE = true) (hw : cs.wfTree = true) (hn : cs.chainNodup = true)
    (hab : a ≠ b) :
    cs'.isDirE = true ∧ cs'.wfTree = true ∧ cs'.chainNodup = true ∧
      cs'.getChild a = none := by
  have hnames := chainNodup_names cs hn
  rcases hga : cs.getChild a with _ | node
  · rw [shutilMoveChild_no_src cs a b hga] at h
    cases h
  · have hnodew : node.wfTree = true := wfTree_getChild cs a node hga hw
    have hnoden : node.chainNodup = true := chainNodup_getChild cs a node hga hn
    rcases hgb : cs.getChild b with _ | d
    · rw [shutilMoveChild_to_free cs a b node hga hgb] at h
      cases h
      refine ⟨?_, ?_, ?_, ?_⟩
      · rw [isDirE_appendChild, isDirE_removeChild _ _ hw]
        exact hd
      · exact wfTree_appendChild _ _ _ (wfTree_removeChild _ _ hw) hnodew
      · refine chainNodup_appendChild _ _ _ ?_ (wfTree_removeChild _ _ hw)
          (chainNodup_removeChild _ _ hn) hnoden ?_
        · rw [isDirE_removeChild _ _ hw]
          exact hd
        · rw [getChild_removeChild_ne _ _ _ (Ne.symm hab)]
          exact hgb
      · rw [getChild_appendChild_ne _ _ _ _ hab]
        exact getChild_removeChild_self _ _ hnames
    · cases d with
      | file fdb =>
        cases hndir : node.isDirE
        · rw [shutilMoveChild_over_file cs a b node fdb hga hgb hndir] at h
          cases h
          refine ⟨?_, ?_, ?_, ?_⟩
          · rw [isDirE_setChild, isDirE_removeChild _ _ hw]
            exact hd
          · exact wfTree_setChild _ _ _ (wfTree_removeChild _ _ hw) hnodew
          · refine chainNodup_setChild _ _ _ (chainNodup_removeChild _ _ hn) hnoden ?_
            rw [getChild_removeChild_ne _ _ _ (Ne.symm hab), hgb]
            rfl
          · rw [getChild_setChild_ne _ _ _ _ hab]
            exact getChild_removeChild_self _ _ hnames
        · rw [shutilMoveChild_over_file_dir cs a b node fdb hga hgb hndir] at h
          cases h
      | dnil =>
        cases hhc : Entry.hasChild .dnil a
        · rw [shutilMoveChild_into_dir cs a b node .dnil hga hgb rfl hhc] at h
          cases h
          exact moveIntoDir_props cs a b node .dnil hd hw hn hab hga hgb rfl
            (hasChild_false_getChild _ _ hhc)
        · rw [shutilMoveChild_into_dir_conflict cs a b node .dnil hga hgb rfl hhc] at h
          cases h
      | dcons dn dc dr =>
        cases hhc : Entry.hasChild (.dcons dn dc dr) a
        · rw [shutilMoveChild_into_dir cs a b node (.dcons dn dc dr) hga hgb rfl hhc] at h
          cases h
          exact moveIntoDir_props cs a b node (.dcons dn dc dr) hd hw hn hab hga hgb rfl
            (hasChild_false_getChild _ _ hhc)
        · rw [shutilMoveChild_into_dir_conflict cs a b node (.dcons dn dc dr) hga hgb rfl hhc] at h
          cases h

/-- Reduction of a merge step: source file colliding with an existing
target entry (backup then move into place). -/
theorem merge_cons_file_coll (sp tp : List String) (item : String) (fd : FileData)
    (rest tgt : Entry) (time : Nat) (node : Entry)
    (hgt : tgt.getChild item = some node) :
    _merge_directories sp tp (.dcons item (.file fd) rest) tgt time =
      (match shutilMoveChild tgt item (item ++ ".backup_" ++ toString time) with
       | .error er => .error er
       | .ok tgt1 =>
         (match _merge_directories sp tp rest (tgt1.appendChild item (.file fd)) time with
          | .error er => .error er
          | .ok (srem, tgt3, tr) =>
            .ok (srem, tgt3,
              .move (tp ++ [item]) (tp ++ [item ++ ".backup_" ++ toString time]) ::
                .move (sp ++ [item]) (tp ++ [item]) :: tr))) := by
  conv_lhs => rw [_merge_directories.eq_def]
  dsimp only
  rw [hgt]

/-- Reduction of a merge step: source file moved to a free target name. -/
theorem merge_cons_file_free (sp tp : List String) (item : String) (fd : FileData)
    (rest tgt : Entry) (time : Nat)
    (hgt : tgt.getChild item = none) :
    _merge_directories sp tp (.dcons item (.file fd) rest) tgt time =
      (match _merge_directories sp tp rest (tgt.appendChild item (.file fd)) time with
       | .error er => .error er
       | .ok (srem, tgt3, tr) =>
         .ok (srem, tgt3, .move (sp ++ [item]) (tp ++ [item]) :: tr)) := by
  conv_lhs => rw [_merge_directories.eq_def]
  dsimp only
  rw [hgt]

/-- Reduction of a merge step: source subdirectory merged recursively
into an existing target subdirectory. -/
theorem merge_cons_dir_coll (sp tp : List String) (item : String) (cdir rest tgt : Entry)
    (time : Nat) (t : Entry)
    (hcd : cdir.isDirE = true) (hgt : tgt.getChild item = some t) (hdt : t.isDirE = true) :
    _merge_directories sp tp (.dcons item cdir rest) tgt time =
      (match _merge_directories (sp ++ [item]) (tp ++ [item]) cdir t time with
       | .error er => .error er
       | .ok (csrem, t2, tr1) =>
         if csrem.chainNames.isEmpty then
           (match _merge_directories sp tp rest (tgt.setChild item t2) time with
            | .error er => .error er
            | .ok (srem, tgt3, tr) =>
              .ok (srem, tgt3, tr1 ++ [.rmdir (sp ++ [item])] ++ tr))
         else
           (match _merge_directories sp tp rest (tgt.setChild item t2) time with
            | .error er => .error er
            | .ok (srem, tgt3, tr) => .ok (.dcons item csrem srem, tgt3, tr1 ++ tr))) := by
  cases cdir with
  | file fd => simp [Entry.isDirE] at hcd
  | dnil =>
    conv_lhs => rw [_merge_directories.eq_def]
    dsimp only
    rw [hgt]
    dsimp only
    rw [hdt]
    rfl
  | dcons cn cc cr =>
    conv_lhs => rw [_merge_directories.eq_def]
    dsimp only
    rw [hgt]
    dsimp only
    rw [hdt]
    rfl

/-- Reduction of a merge step: source subdirectory colliding with a
target entry that is a file (os.listdir raises NotADirectoryError). -/
theorem merge_cons_dir_notdir (sp tp : List String) (item : String) (cdir rest tgt : Entry)
    (time : Nat) (t : Entry)
    (hcd : cdir.isDirE = true) (hgt : tgt.getChild item = some t) (hdt : t.isDirE = false) :
    _merge_directories sp tp (.dcons item cdir rest) tgt time = .error .notADirectory := by
  cases cdir with
  | file fd => simp [Entry.isDirE] at hcd
  | dnil =>
    conv_lhs => rw [_merge_directories.eq_def]
    dsimp only
    rw [hgt]
    dsimp only
    rw [hdt]
    rfl
  | dcons cn cc cr =>
    conv_lhs => rw [_merge_directories.eq_def]
    dsimp only
    rw [hgt]
    dsimp only
    rw [hdt]
    rfl

/-- Reduction of a merge step: source subdirectory moved to a free
target name. -/
theorem merge_cons_dir_free (sp tp : List String) (item : String) (cdir rest tgt : Entry)
    (time : Nat)
    (hcd : cdir.isDirE = true) (hgt : tgt.getChild item = none) :
    _merge_directories sp tp (.dcons item cdir rest) tgt time =
      (match _merge_directories sp tp rest (tgt.appendChild item cdir) time with
       | .error er => .error er
       | .ok (srem, tgt3, tr) =>
         .ok (srem, tgt3, .move (sp ++ [item]) (tp ++ [item]) :: tr)) := by
  cases cdir with
  | file fd => simp [Entry.isDirE] at hcd
  | dnil =>
    conv_lhs => rw [_merge_directories.eq_def]
    dsimp only
    rw [hgt]
  | dcons cn cc cr =>
    conv_lhs => rw [_merge_directories.eq_def]
    dsimp only
    rw [hgt]

/-- A merge never touches a target child whose name is neither a source
item's name nor a source item's backup name. -/
theorem merge_preserves_getChild (time : Nat) (k : String) (src : Entry) :
    ∀ (sp tp : List String) (tgt srem tgt' : Entry) (tr : List MOp),
      _merge_directories sp tp src tgt time = .ok (srem, tgt', tr) →
      (∀ m ∈ src.chainNames, k ≠ m ∧ k ≠ m ++ ".backup_" ++ toString time) →
      tgt'.getChild k = tgt.getChild k := by
  induction src with
  | file fd =>
    intro sp tp tgt srem tgt' tr hok hnames
    have hred : _merge_directories sp tp (.file fd) tgt time = .ok (.file fd, tgt, []) := rfl
    rw [hred] at hok
    cases hok
    rfl
  | dnil =>
    intro sp tp tgt srem tgt' tr hok hnames
    have hred : _merge_directories sp tp .dnil tgt time = .ok (.dnil, tgt, []) := rfl
    rw [hred] at hok
    cases hok
    rfl
  | dcons item child rest ihc ihr =>
    intro sp tp tgt srem tgt' tr hok hnames
    have hki := hnames item (by simp [Entry.chainNames])
    have hrest : ∀ m ∈ rest.chainNames, k ≠ m ∧ k ≠ m ++ ".backup_" ++ toString time :=
      fun m hm => hnames m (by simp [Entry.chainNames, hm])
    cases child with
    | file fd =>
      rcases hgt : tgt.getChild item with _ | node
      · rw [merge_cons_file_free sp tp item fd rest tgt time hgt] at hok
        rcases hrec : _merge_directories sp tp rest (tgt.appendChild item (.file fd)) time
            with er | ⟨srem0, tgt3, tr0⟩
        · rw [hrec] at hok
          cases hok
        · rw [hrec] at hok
          dsimp only at hok
          cases hok
          rw [ihr sp tp _ _ _ _ hrec hrest]
          exact getChild_appendChild_ne _ _ _ _ hki.1
      · rw [merge_cons_file_coll sp tp item fd rest tgt time node hgt] at hok
        rcases hmv : shutilMoveChild tgt item (item ++ ".backup_" ++ toString time)
            with er | tgt1
        · rw [hmv] at hok
          cases hok
        · rw [hmv] at hok
          dsimp only at hok
          rcases hrec : _merge_directories sp tp rest (tgt1.appendChild item (.file fd)) time
              with er | ⟨srem0, tgt3, tr0⟩
          · rw [hrec] at hok
            cases hok
          · rw [hrec] at hok
            dsimp only at hok
            cases hok
            rw [ihr sp tp _ _ _ _ hrec hrest]
            rw [getChild_appendChild_ne _ _ _ _ hki.1]
            exact shutilMoveChild_getChild_ne tgt item _ k tgt1 hmv hki.1 hki.2
    | dnil =>
      rcases hgt : tgt.getChild item with _ | t
      · rw [merge_cons_dir_free sp tp item Entry.dnil rest tgt time rfl hgt] at hok
        rcases hrec : _merge_directories sp tp rest (tgt.appendChild item Entry.dnil) time
            with er | ⟨srem0, tgt3, tr0⟩
        · rw [hrec] at hok
          cases hok
        · rw [hrec] at hok
          dsimp only at hok
          cases hok
          rw [ihr sp tp _ _ _ _ hrec hrest]
          exact getChild_appendChild_ne _ _ _ _ hki.1
      · cases hdt : t.isDirE
        · rw [merge_cons_dir_notdir sp tp item Entry.dnil rest tgt time t rfl hgt hdt] at hok
          cases hok
        · rw [merge_cons_dir_coll sp tp item Entry.dnil rest tgt time t rfl hgt hdt] at hok
          rcases hrec1 : _merge_directories (sp ++ [item]) (tp ++ [item]) Entry.dnil t time
              with er | ⟨csrem, t2, tr1⟩
          · rw [hrec1] at hok
            cases hok
          · rw [hrec1] at hok
            dsimp only at hok
            cases hemp : csrem.chainNames.isEmpty
            · rw [hemp] at hok
              rw [if_neg Bool.false_ne_true] at hok
              rcases hrec : _merge_directories sp tp rest (tgt.setChild item t2) time
                  with er | ⟨srem0, tgt3, tr0⟩
              · rw [hrec] at hok
                cases hok
              · rw [hrec] at hok
                dsimp only at hok
                cases hok
                rw [ihr sp tp _ _ _ _ hrec hrest]
                exact getChild_setChild_ne _ _ _ _ hki.1
            · rw [hemp] at hok
              rw [if_pos rfl] at hok
              rcases hrec : _merge_directories sp tp rest (tgt.setChild item t2) time
                  with er | ⟨srem0, tgt3, tr0⟩
              · rw [hrec] at hok
                cases hok
              · rw [hrec] at hok
                dsimp only at hok
                cases hok
                rw [ihr sp tp _ _ _ _ hrec hrest]
                exact getChild_setChild_ne _ _ _ _ hki.1
    | dcons cn cc cr =>
      rcases hgt : tgt.getChild item with _ | t
      · rw [merge_cons_dir_free sp tp item (Entry.dcons cn cc cr) rest tgt time rfl hgt] at hok
        rcases hrec : _merge_directories sp tp rest (tgt.appendChild item (Entry.dcons cn cc cr)) time
            with er | ⟨srem0, tgt3, tr0⟩
        · rw [hrec] at hok
          cases hok
        · rw [hrec] at hok
          dsimp only at hok
          cases hok
          rw [ihr sp tp _ _ _ _ hrec hrest]
          exact getChild_appendChild_ne _ _ _ _ hki.1
      · cases hdt : t.isDirE
        · rw [merge_cons_dir_notdir sp tp item (Entry.dcons cn cc cr) rest tgt time t rfl hgt hdt] at hok
          cases hok
        · rw [merge_cons_dir_coll sp tp item (Entry.dcons cn cc cr) rest tgt time t rfl hgt hdt] at hok
          rcases hrec1 : _merge_directories (sp ++ [item]) (tp ++ [item]) (Entry.dcons cn cc cr) t time
              with er | ⟨csrem, t2, tr1⟩
          · rw [hrec1] at hok
            cases hok
          · rw [hrec1] at hok
            dsimp only at hok
            cases hemp : csrem.chainNames.isEmpty
            · rw [hemp] at hok
              rw [if_neg Bool.false_ne_true] at hok
              rcases hrec : _merge_directories sp tp rest (tgt.setChild item t2) time
                  with er | ⟨srem0, tgt3, tr0⟩
              · rw [hrec] at hok
                cases hok
              · rw [hrec] at hok
                dsimp only at hok
                cases hok
                rw [ihr sp tp _ _ _ _ hrec hrest]
                exact getChild_setChild_ne _ _ _ _ hki.1
            · rw [hemp] at hok
              rw [if_pos rfl] at hok
              rcases hrec : _merge_directories sp tp rest (tgt.setChild item t2) time
                  with er | ⟨srem0, tgt3, tr0⟩
              · rw [hrec] at hok
                cases hok
              · rw [hrec] at hok
                dsimp only at hok
                cases hok
                rw [ihr sp tp _ _ _ _ hrec hrest]
                exact getChild_setChild_ne _ _ _ _ hki.1

/-- A merge of a well-formed source chain into a well-formed target
directory chain keeps the target a well-formed directory chain with
pairwise-distinct names along every sibling chain. -/
theorem merge_preserves_props (time : Nat) (src : Entry) :
    ∀ (sp tp : List String) (tgt srem tgt' : Entry) (tr : List MOp),
      _merge_directories sp tp src tgt time = .ok (srem, tgt', tr) →
      src.wfTree = true → src.chainNodup = true →
      tgt.isDirE = true → tgt.wfTree = true → tgt.chainNodup = true →
      tgt'.isDirE = true ∧ tgt'.wfTree = true ∧ tgt'.chainNodup = true := by
  induction src with
  | file fd =>
    intro sp tp tgt srem tgt' tr hok hw hn htd htw htn
    have hred : _merge_directories sp tp (.file fd) tgt time = .ok (.file fd, tgt, []) := rfl
    rw [hred] at hok
    cases hok
    exact ⟨htd, htw, htn⟩
  | dnil =>
    intro sp tp tgt srem tgt' tr hok hw hn htd htw htn
    have hred : _merge_directories sp tp .dnil tgt time = .ok (.dnil, tgt, []) := rfl
    rw [hred] at hok
    cases hok
    exact ⟨htd, htw, htn⟩
  | dcons item child rest ihc ihr =>
    intro sp tp tgt srem tgt' tr hok hw hn htd htw htn
    simp only [Entry.wfTree, Bool.and_eq_true] at hw
    obtain ⟨⟨hcw, hrd⟩, hrw⟩ := hw
    simp only [Entry.chainNodup, Bool.and_eq_true] at hn
    obtain ⟨⟨hn1, hn2⟩, hn3⟩ := hn
    cases child with
    | file fd =>
      rcases hgt : tgt.getChild item with _ | node
      · rw [merge_cons_file_free sp tp item fd rest tgt time hgt] at hok
        rcases hrec : _merge_directories sp tp rest (tgt.appendChild item (.file fd)) time
            with er | ⟨srem0, tgt3, tr0⟩
        · rw [hrec] at hok
          cases hok
        · rw [hrec] at hok
          dsimp only at hok
          cases hok
          refine ihr sp tp _ _ _ _ hrec hrw hn3 ?_ ?_ ?_
          · rw [isDirE_appendChild]
            exact htd
          · exact wfTree_appendChild _ _ _ htw rfl
          · exact chainNodup_appendChild _ _ _ htd htw htn rfl hgt
      · rw [merge_cons_file_coll sp tp item fd rest tgt time node hgt] at hok
        rcases hmv : shutilMoveChild tgt item (item ++ ".backup_" ++ toString time)
            with er | tgt1
        · rw [hmv] at hok
          cases hok
        · rw [hmv] at hok
          dsimp only at hok
          obtain ⟨p1, p2, p3, p4⟩ := shutilMoveChild_props tgt item _ tgt1 hmv htd htw htn
            (Ne.symm (backupName_ne_self item time))
          rcases hrec : _merge_directories sp tp rest (tgt1.appendChild item (.file fd)) time
              with er | ⟨srem0, tgt3, tr0⟩
          · rw [hrec] at hok
            cases hok
          · rw [hrec] at hok
            dsimp only at hok
            cases hok
            refine ihr sp tp _ _ _ _ hrec hrw hn3 ?_ ?_ ?_
            · rw [isDirE_appendChild]
              exact p1
            · exact wfTree_appendChild _ _ _ p2 rfl
            · exact chainNodup_appendChild _ _ _ p1 p2 p3 rfl p4
    | dnil =>
      rcases hgt : tgt.getChild item with _ | t
      · rw [merge_cons_dir_free sp tp item Entry.dnil rest tgt time rfl hgt] at hok
        rcases hrec : _merge_directories sp tp rest (tgt.appendChild item Entry.dnil) time
            with er | ⟨srem0, tgt3, tr0⟩
        · rw [hrec] at hok
          cases hok
        · rw [hrec] at hok
          dsimp only at hok
          cases hok
          refine ihr sp tp _ _ _ _ hrec hrw hn3 ?_ ?_ ?_
          · rw [isDirE_appendChild]
            exact htd
          · exact wfTree_appendChild _ _ _ htw hcw
          · exact chainNodup_appendChild _ _ _ htd htw htn hn2 hgt
      · cases hdt : t.isDirE
        · rw [merge_cons_dir_notdir sp tp item Entry.dnil rest tgt time t rfl hgt hdt] at hok
          cases hok
        · rw [merge_cons_dir_coll sp tp item Entry.dnil rest tgt time t rfl hgt hdt] at hok
          rcases hrec1 : _merge_directories (sp ++ [item]) (tp ++ [item]) Entry.dnil t time
              with er | ⟨csrem, t2, tr1⟩
          · rw [hrec1] at hok
            cases hok
          · rw [hrec1] at hok
            dsimp only at hok
            obtain ⟨q1, q2, q3⟩ := ihc (sp ++ [item]) (tp ++ [item]) t csrem t2 tr1 hrec1
              hcw hn2 hdt (wfTree_getChild tgt item t hgt htw)
              (chainNodup_getChild tgt item t hgt htn)
            have hs1 : (tgt.setChild item t2).isDirE = true := by
              rw [isDirE_setChild]
              exact htd
            have hs2 : (tgt.setChild item t2).wfTree = true := wfTree_setChild _ _ _ htw q2
            have hs3 : (tgt.setChild item t2).chainNodup = true := by
              refine chainNodup_setChild _ _ _ htn q3 ?_
              rw [hgt]
              rfl
            cases hemp : csrem.chainNames.isEmpty
            · rw [hemp] at hok
              rw [if_neg Bool.false_ne_true] at hok
              rcases hrec : _merge_directories sp tp rest (tgt.setChild item t2) time
                  with er | ⟨srem0, tgt3, tr0⟩
              · rw [hrec] at hok
                cases hok
              · rw [hrec] at hok
                dsimp only at hok
                cases hok
                exact ihr sp tp _ _ _ _ hrec hrw hn3 hs1 hs2 hs3
            · rw [hemp] at hok
              rw [if_pos rfl] at hok
              rcases hrec : _merge_directories sp tp rest (tgt.setChild item t2) time
                  with er | ⟨srem0, tgt3, tr0⟩
              · rw [hrec] at hok
                cases hok
              · rw [hrec] at hok
                dsimp only at hok
                cases hok
                exact ihr sp tp _ _ _ _ hrec hrw hn3 hs1 hs2 hs3
    | dcons cn cc cr =>
      rcases hgt : tgt.getChild item with _ | t
      · rw [merge_cons_dir_free sp tp item (Entry.dcons cn cc cr) rest tgt time rfl hgt] at hok
        rcases hrec : _merge_directories sp tp rest (tgt.appendChild item (Entry.dcons cn cc cr)) time
            with er | ⟨srem0, tgt3, tr0⟩
        · rw [hrec] at hok
          cases hok
        · rw [hrec] at hok
          dsimp only at hok
          cases hok
          refine ihr sp tp _ _ _ _ hrec hrw hn3 ?_ ?_ ?_
          · rw [isDirE_appendChild]
            exact htd
          · exact wfTree_appendChild _ _ _ htw hcw
          · exact chainNodup_appendChild _ _ _ htd htw htn hn2 hgt
      · cases hdt : t.isDirE
        · rw [merge_cons_dir_notdir sp tp item (Entry.dcons cn cc cr) rest tgt time t rfl hgt hdt] at hok
          cases hok
        · rw [merge_cons_dir_coll sp tp item (Entry.dcons cn cc cr) rest tgt time t rfl hgt hdt] at hok
          rcases hrec1 : _merge_directories (sp ++ [item]) (tp ++ [item]) (Entry.dcons cn cc cr) t time
              with er | ⟨csrem, t2, tr1⟩
          · rw [hrec1] at hok
            cases hok
          · rw [hrec1] at hok
            dsimp only at hok
            obtain ⟨q1, q2, q3⟩ := ihc (sp ++ [item]) (tp ++ [item]) t csrem t2 tr1 hrec1
              hcw hn2 hdt (wfTree_getChild tgt item t hgt htw)
              (chainNodup_getChild tgt item t hgt htn)
            have hs1 : (tgt.setChild item t2).isDirE = true := by
              rw [isDirE_setChild]
              exact htd
            have hs2 : (tgt.setChild item t2).wfTree = true := wfTree_setChild _ _ _ htw q2
            have hs3 : (tgt.setChild item t2).chainNodup = true := by
              refine chainNodup_setChild _ _ _ htn q3 ?_
              rw [hgt]
              rfl
            cases hemp : csrem.chainNames.isEmpty
            · rw [hemp] at hok
              rw [if_neg Bool.false_ne_true] at hok
              rcases hrec : _merge_directories sp tp rest (tgt.setChild item t2) time
                  with er | ⟨srem0, tgt3, tr0⟩
              · rw [hrec] at hok
                cases hok
              · rw [hrec] at hok
                dsimp only at hok
                cases hok
                exact ihr sp tp _ _ _ _ hrec hrw hn3 hs1 hs2 hs3
            · rw [hemp] at hok
              rw [if_pos rfl] at hok
              rcases hrec : _merge_directories sp tp rest (tgt.setChild item t2) time
                  with er | ⟨srem0, tgt3, tr0⟩
              · rw [hrec] at hok
                cases hok
              · rw [hrec] at hok
                dsimp only at hok
                cases hok
                exact ihr sp tp _ _ _ _ hrec hrw hn3 hs1 hs2 hs3

/-- C2 (amended): in a merge where the source and the well-formed target
both contain a file of the colliding name n, provided the backup name
n.backup_(time) is itself fresh - no entry of the source or target
already bears it, and no other source item's backup name equals n - the
pre-existing target file is first moved to the backup name and the
source file is then moved into place (the two moves appear adjacently in
this order in the operation trace), and afterwards both contents are
present: the source content at n, the displaced target content at the
backup name.  (Without the freshness proviso the backup move silently
destroys the file already holding the backup name - see the
counterexample.) -/
theorem merge_backup_then_move (time : Nat) (n : String) (a b : FileData) (src : Entry) :
    ∀ (sp tp : List String) (tgt srem tgt' : Entry) (tr : List MOp),
      _merge_directories sp tp src tgt time = .ok (srem, tgt', tr) →
      src.wfTree = true → src.chainNodup = true →
      tgt.isDirE = true → tgt.wfTree = true → tgt.chainNodup = true →
      src.getChild n = some (.file a) →
      tgt.getChild n = some (.file b) →
      src.getChild (n ++ ".backup_" ++ toString time) = none →
      tgt.getChild (n ++ ".backup_" ++ toString time) = none →
      (∀ m ∈ src.chainNames, m ≠ n → m ++ ".backup_" ++ toString time ≠ n) →
      tgt'.getChild n = some (.file a) ∧
      tgt'.getChild (n ++ ".backup_" ++ toString time) = some (.file b) ∧
      ∃ pre post, tr = pre ++
        .move (tp ++ [n]) (tp ++ [n ++ ".backup_" ++ toString time]) ::
          .move (sp ++ [n]) (tp ++ [n]) :: post := by
  induction src with
  | file fd =>
    intro sp tp tgt srem tgt' tr hok hw hnd htd htw htn hsn htgn hbs hbt hshape
    simp [Entry.getChild] at hsn
  | dnil =>
    intro sp tp tgt srem tgt' tr hok hw hnd htd htw htn hsn htgn hbs hbt hshape
    simp [Entry.getChild] at hsn
  | dcons item child rest ihc ihr =>
    intro sp tp tgt srem tgt' tr hok hw hnd htd htw htn hsn htgn hbs hbt hshape
    simp only [Entry.wfTree, Bool.and_eq_true] at hw
    obtain ⟨⟨hcw, hrd⟩, hrw⟩ := hw
    simp only [Entry.chainNodup, Bool.and_eq_true] at hnd
    obtain ⟨⟨hd1, hd2⟩, hd3⟩ := hnd
    have hitem_nm : item ∉ rest.chainNames := by simpa using hd1
    simp only [Entry.getChild] at hsn hbs
    by_cases hin : item = n
    · subst hin
      rw [if_pos rfl] at hsn
      cases hsn
      have hib : ¬(item = item ++ ".backup_" ++ toString time) :=
        fun he => backupName_ne_self item time he.symm
      rw [if_neg hib] at hbs
      rw [merge_cons_file_coll sp tp item a rest tgt time (.file b) htgn] at hok
      have hmv : shutilMoveChild tgt item (item ++ ".backup_" ++ toString time) =
          .ok ((tgt.removeChild item).appendChild
            (item ++ ".backup_" ++ toString time) (.file b)) :=
        shutilMoveChild_to_free tgt item _ (.file b) htgn hbt
      rw [hmv] at hok
      dsimp only at hok
      obtain ⟨p1, p2, p3, p4⟩ := shutilMoveChild_props tgt item _ _ hmv htd htw htn
        (Ne.symm (backupName_ne_self item time))
      have h1bk : ((tgt.removeChild item).appendChild
          (item ++ ".backup_" ++ toString time) (.file b)).getChild
            (item ++ ".backup_" ++ toString time) = some (.file b) := by
        refine getChild_appendChild_self _ _ _ (wfTree_removeChild _ _ htw) ?_ ?_
        · rw [isDirE_removeChild _ _ htw]
          exact htd
        · rw [getChild_removeChild_ne _ _ _ (backupName_ne_self item time)]
          exact hbt
      have h2n : (((tgt.removeChild item).appendChild
          (item ++ ".backup_" ++ toString time) (.file b)).appendChild item
            (.file a)).getChild item = some (.file a) :=
        getChild_appendChild_self _ _ _ p2 p1 p4
      have h2bk : (((tgt.removeChild item).appendChild
          (item ++ ".backup_" ++ toString time) (.file b)).appendChild item
            (.file a)).getChild (item ++ ".backup_" ++ toString time) = some (.file b) := by
        rw [getChild_appendChild_ne _ _ _ _ (backupName_ne_self item time)]
        exact h1bk
      rcases hrec : _merge_directories sp tp rest
          (((tgt.removeChild item).appendChild
            (item ++ ".backup_" ++ toString time) (.file b)).appendChild item (.file a)) time
          with er | ⟨srem0, tgt3, tr0⟩
      · rw [hrec] at hok
        cases hok
      · rw [hrec] at hok
        dsimp only at hok
        cases hok
        have hbk_rest : (item ++ ".backup_" ++ toString time) ∉ rest.chainNames :=
          (getChild_eq_none_iff _ _).mp hbs
        have hA1 : tgt'.getChild item = _ := merge_preserves_getChild time item rest sp tp
          _ srem tgt' tr0 hrec (by
            intro m hm
            constructor
            · intro he
              exact hitem_nm (he ▸ hm)
            · intro he
              exact hshape m (by simp [Entry.chainNames, hm])
                (fun hmi => hitem_nm (hmi ▸ hm)) he.symm)
        have hA2 : tgt'.getChild (item ++ ".backup_" ++ toString time) = _ :=
          merge_preserves_getChild time (item ++ ".backup_" ++ toString time) rest sp tp
          _ srem tgt' tr0 hrec (by
            intro m hm
            constructor
            · intro he
              exact hbk_rest (he ▸ hm)
            · intro he
              have : item = m := backupName_inj item m time he
              exact hitem_nm (this ▸ hm))
        refine ⟨?_, ?_, [], tr0, rfl⟩
        · rw [hA1]
          exact h2n
        · rw [hA2]
          exact h2bk
    · rw [if_neg hin] at hsn
      have hib : ¬(item = n ++ ".backup_" ++ toString time) := by
        intro he
        rw [if_pos he] at hbs
        cases hbs
      rw [if_neg hib] at hbs
      have hnin : n ≠ item := fun he => hin he.symm
      have hitem_bk_ne_n : item ++ ".backup_" ++ toString time ≠ n :=
        hshape item (by simp [Entry.chainNames]) hin
      have hnbs : n ≠ item ++ ".backup_" ++ toString time :=
        fun he => hitem_bk_ne_n he.symm
      have hbk_item : n ++ ".backup_" ++ toString time ≠ item := fun he => hib he.symm
      have hbk_bkitem : n ++ ".backup_" ++ toString time ≠
          item ++ ".backup_" ++ toString time := by
        intro he
        exact hnin (backupName_inj n item time he)
      have hshape_rest : ∀ m ∈ rest.chainNames, m ≠ n →
          m ++ ".backup_" ++ toString time ≠ n :=
        fun m hm => hshape m (by simp [Entry.chainNames, hm])
      cases child with
      | file fd =>
        rcases hgt : tgt.getChild item with _ | node
        · rw [merge_cons_file_free sp tp item fd rest tgt time hgt] at hok
          rcases hrec : _merge_directories sp tp rest (tgt.appendChild item (.file fd)) time
              with er | ⟨srem0, tgt3, tr0⟩
          · rw [hrec] at hok
            cases hok
          · rw [hrec] at hok
            dsimp only at hok
            cases hok
            obtain ⟨c1, c2, pre0, post0, htr0⟩ := ihr sp tp _ srem tgt' tr0 hrec hrw hd3
              (by rw [isDirE_appendChild]; exact htd)
              (wfTree_appendChild _ _ _ htw rfl)
              (chainNodup_appendChild _ _ _ htd htw htn rfl hgt)
              hsn
              (by rw [getChild_appendChild_ne _ _ _ _ hnin]; exact htgn)
              hbs
              (by rw [getChild_appendChild_ne _ _ _ _ hbk_item]; exact hbt)
              hshape_rest
            refine ⟨c1, c2, .move (sp ++ [item]) (tp ++ [item]) :: pre0, post0, ?_⟩
            rw [htr0]
            rfl
        · rw [merge_cons_file_coll sp tp item fd rest tgt time node hgt] at hok
          rcases hmv : shutilMoveChild tgt item (item ++ ".backup_" ++ toString time)
              with er | tgt1
          · rw [hmv] at hok
            cases hok
          · rw [hmv] at hok
            dsimp only at hok
            obtain ⟨p1, p2, p3, p4⟩ := shutilMoveChild_props tgt item _ tgt1 hmv htd htw htn
              (Ne.symm (backupName_ne_self item time))
            have h1n : tgt1.getChild n = some (.file b) := by
              rw [shutilMoveChild_getChild_ne tgt item _ n tgt1 hmv hnin hnbs]
              exact htgn
            have h1bk : tgt1.getChild (n ++ ".backup_" ++ toString time) = none := by
              rw [shutilMoveChild_getChild_ne tgt item _ _ tgt1 hmv hbk_item hbk_bkitem]
              exact hbt
            rcases hrec : _merge_directories sp tp rest (tgt1.appendChild item (.file fd)) time
                with er | ⟨srem0, tgt3, tr0⟩
            · rw [hrec] at hok
              cases hok
            · rw [hrec] at hok
              dsimp only at hok
              cases hok
              obtain ⟨c1, c2, pre0, post0, htr0⟩ := ihr sp tp _ srem tgt' tr0 hrec hrw hd3
                (by rw [isDirE_appendChild]; exact p1)
                (wfTree_appendChild _ _ _ p2 rfl)
                (chainNodup_appendChild _ _ _ p1 p2 p3 rfl p4)
                hsn
                (by rw [getChild_appendChild_ne _ _ _ _ hnin]; exact h1n)
                hbs
                (by rw [getChild_appendChild_ne _ _ _ _ hbk_item]; exact h1bk)
                hshape_rest
              refine ⟨c1, c2,
                .move (tp ++ [item]) (tp ++ [item ++ ".backup_" ++ toString time]) ::
                  .move (sp ++ [item]) (tp ++ [item]) :: pre0, post0, ?_⟩
              rw [htr0]
              rfl
      | dnil =>
        rcases hgt : tgt.getChild item with _ | t
        · rw [merge_cons_dir_free sp tp item Entry.dnil rest tgt time rfl hgt] at hok
          rcases hrec : _merge_directories sp tp rest (tgt.appendChild item Entry.dnil) time
              with er | ⟨srem0, tgt3, tr0⟩
          · rw [hrec] at hok
            cases hok
          · rw [hrec] at hok
            dsimp only at hok
            cases hok
            obtain ⟨c1, c2, pre0, post0, htr0⟩ := ihr sp tp _ srem tgt' tr0 hrec hrw hd3
              (by rw [isDirE_appendChild]; exact htd)
              (wfTree_appendChild _ _ _ htw hcw)
              (chainNodup_appendChild _ _ _ htd htw htn hd2 hgt)
              hsn
              (by rw [getChild_appendChild_ne _ _ _ _ hnin]; exact htgn)
              hbs
              (by rw [getChild_appendChild_ne _ _ _ _ hbk_item]; exact hbt)
              hshape_rest
            refine ⟨c1, c2, .move (sp ++ [item]) (tp ++ [item]) :: pre0, post0, ?_⟩
            rw [htr0]
            rfl
        · cases hdt : t.isDirE
          · rw [merge_cons_dir_notdir sp tp item Entry.dnil rest tgt time t rfl hgt hdt] at hok
            cases hok
          · rw [merge_cons_dir_coll sp tp item Entry.dnil rest tgt time t rfl hgt hdt] at hok
            rcases hrec1 : _merge_directories (sp ++ [item]) (tp ++ [item]) Entry.dnil t time
                with er | ⟨csrem, t2, tr1⟩
            · rw [hrec1] at hok
              cases hok
            · rw [hrec1] at hok
              dsimp only at hok
              obtain ⟨q1, q2, q3⟩ := merge_preserves_props time Entry.dnil (sp ++ [item])
                (tp ++ [item]) t csrem t2 tr1 hrec1 hcw hd2 hdt
                (wfTree_getChild tgt item t hgt htw) (chainNodup_getChild tgt item t hgt htn)
              have hs1 : (tgt.setChild item t2).isDirE = true := by
                rw [isDirE_setChild]
                exact htd
              have hs2 : (tgt.setChild item t2).wfTree = true := wfTree_setChild _ _ _ htw q2
              have hs3 : (tgt.setChild item t2).chainNodup = true := by
                refine chainNodup_setChild _ _ _ htn q3 ?_
                rw [hgt]
                rfl
              have hs4 : (tgt.setChild item t2).getChild n = some (.file b) := by
                rw [getChild_setChild_ne _ _ _ _ hnin]
                exact htgn
              have hs5 : (tgt.setChild item t2).getChild
                  (n ++ ".backup_" ++ toString time) = none := by
                rw [getChild_setChild_ne _ _ _ _ hbk_item]
                exact hbt
              cases hemp : csrem.chainNames.isEmpty
              · rw [hemp] at hok
                rw [if_neg Bool.false_ne_true] at hok
                rcases hrec : _merge_directories sp tp rest (tgt.setChild item t2) time
                    with er | ⟨srem0, tgt3, tr0⟩
                · rw [hrec] at hok
                  cases hok
                · rw [hrec] at hok
                  dsimp only at hok
                  cases hok
                  obtain ⟨c1, c2, pre0, post0, htr0⟩ := ihr sp tp _ srem0 tgt' tr0 hrec
                    hrw hd3 hs1 hs2 hs3 hsn hs4 hbs hs5 hshape_rest
                  refine ⟨c1, c2, tr1 ++ pre0, post0, ?_⟩
                  rw [htr0]
                  simp [List.append_assoc]
              · rw [hemp] at hok
                rw [if_pos rfl] at hok
                rcases hrec : _merge_directories sp tp rest (tgt.setChild item t2) time
                    with er | ⟨srem0, tgt3, tr0⟩
                · rw [hrec] at hok
                  cases hok
                · rw [hrec] at hok
                  dsimp only at hok
                  cases hok
                  obtain ⟨c1, c2, pre0, post0, htr0⟩ := ihr sp tp _ srem tgt' tr0 hrec
                    hrw hd3 hs1 hs2 hs3 hsn hs4 hbs hs5 hshape_rest
                  refine ⟨c1, c2, tr1 ++ [.rmdir (sp ++ [item])] ++ pre0, post0, ?_⟩
                  rw [htr0]
                  simp [List.append_assoc]
      | dcons cn cc cr =>
        rcases hgt : tgt.getChild item with _ | t
        · rw [merge_cons_dir_free sp tp item (Entry.dcons cn cc cr) rest tgt time rfl hgt] at hok
          rcases hrec : _merge_directories sp tp rest
              (tgt.appendChild item (Entry.dcons cn cc cr)) time
              with er | ⟨srem0, tgt3, tr0⟩
          · rw [hrec] at hok
            cases hok
          · rw [hrec] at hok
            dsimp only at hok
            cases hok
            obtain ⟨c1, c2, pre0, post0, htr0⟩ := ihr sp tp _ srem tgt' tr0 hrec hrw hd3
              (by rw [isDirE_appendChild]; exact htd)
              (wfTree_appendChild _ _ _ htw hcw)
              (chainNodup_appendChild _ _ _ htd htw htn hd2 hgt)
              hsn
              (by rw [getChild_appendChild_ne _ _ _ _ hnin]; exact htgn)
              hbs
              (by rw [getChild_appendChild_ne _ _ _ _ hbk_item]; exact hbt)
              hshape_rest
            refine ⟨c1, c2, .move (sp ++ [item]) (tp ++ [item]) :: pre0, post0, ?_⟩
            rw [htr0]
            rfl
        · cases hdt : t.isDirE
          · rw [merge_cons_dir_notdir sp tp item (Entry.dcons cn cc cr) rest tgt time t
              rfl hgt hdt] at hok
            cases hok
          · rw [merge_cons_dir_coll sp tp item (Entry.dcons cn cc cr) rest tgt time t
              rfl hgt hdt] at hok
            rcases hrec1 : _merge_directories (sp ++ [item]) (tp ++ [item])
                (Entry.dcons cn cc cr) t time
                with er | ⟨csrem, t2, tr1⟩
            · rw [hrec1] at hok
              cases hok
            · rw [hrec1] at hok
              dsimp only at hok
              obtain ⟨q1, q2, q3⟩ := merge_preserves_props time (Entry.dcons cn cc cr)
                (sp ++ [item]) (tp ++ [item]) t csrem t2 tr1 hrec1 hcw hd2 hdt
                (wfTree_getChild tgt item t hgt htw) (chainNodup_getChild tgt item t hgt htn)
              have hs1 : (tgt.setChild item t2).isDirE = true := by
                rw [isDirE_setChild]
                exact htd
              have hs2 : (tgt.setChild item t2).wfTree = true := wfTree_setChild _ _ _ htw q2
              have hs3 : (tgt.setChild item t2).chainNodup = true := by
                refine chainNodup_setChild _ _ _ htn q3 ?_
                rw [hgt]
                rfl
              have hs4 : (tgt.setChild item t2).getChild n = some (.file b) := by
                rw [getChild_setChild_ne _ _ _ _ hnin]
                exact htgn
              have hs5 : (tgt.setChild item t2).getChild
                  (n ++ ".backup_" ++ toString time) = none := by
                rw [getChild_setChild_ne _ _ _ _ hbk_item]
                exact hbt
              cases hemp : csrem.chainNames.isEmpty
              · rw [hemp] at hok
                rw [if_neg Bool.false_ne_true] at hok
                rcases hrec : _merge_directories sp tp rest (tgt.setChild item t2) time
                    with er | ⟨srem0, tgt3, tr0⟩
                · rw [hrec] at hok
                  cases hok
                · rw [hrec] at hok
                  dsimp only at hok
                  cases hok
                  obtain ⟨c1, c2, pre0, post0, htr0⟩ := ihr sp tp _ srem0 tgt' tr0 hrec
                    hrw hd3 hs1 hs2 hs3 hsn hs4 hbs hs5 hshape_rest
                  refine ⟨c1, c2, tr1 ++ pre0, post0, ?_⟩
                  rw [htr0]
                  simp [List.append_assoc]
              · rw [hemp] at hok
                rw [if_pos rfl] at hok
                rcases hrec : _merge_directories sp tp rest (tgt.setChild item t2) time
                    with er | ⟨srem0, tgt3, tr0⟩
                · rw [hrec] at hok
                  cases hok
                · rw [hrec] at hok
                  dsimp only at hok
                  cases hok
                  obtain ⟨c1, c2, pre0, post0, htr0⟩ := ihr sp tp _ srem tgt' tr0 hrec
                    hrw hd3 hs1 hs2 hs3 hsn hs4 hbs hs5 hshape_rest
                  refine ⟨c1, c2, tr1 ++ [.rmdir (sp ++ [item])] ++ pre0, post0, ?_⟩
                  rw [htr0]
                  simp [List.append_assoc]

/-- C2: counterexample to "no file content is ever destroyed by the
merge".  When the target directory already contains an entry bearing
the colliding file's backup name n.backup_(time) - e.g. a backup left
by an earlier merge in the same epoch second - the backup move is a
shutil.move onto an existing file, which silently overwrites it: after
the merge the content "PRECIOUS" of the pre-existing file n.backup_5
is present nowhere in the target tree. -/
theorem merge_backup_collision_destroys_data :
    _merge_directories ["s"] ["t"]
        (.dcons "n" (.file ⟨"SRC", true, true⟩) .dnil)
        (.dcons "n" (.file ⟨"TGT", true, true⟩)
          (.dcons "n.backup_5" (.file ⟨"PRECIOUS", true, true⟩) .dnil)) 5 =
      .ok (.dnil,
        .dcons "n.backup_5" (.file ⟨"TGT", true, true⟩)
          (.dcons "n" (.file ⟨"SRC", true, true⟩) .dnil),
        [.move ["t", "n"] ["t", "n.backup_5"], .move ["s", "n"] ["t", "n"]]) ∧
    "PRECIOUS" ∉ chainContents
        (.dcons "n.backup_5" (.file ⟨"TGT", true, true⟩)
          (.dcons "n" (.file ⟨"SRC", true, true⟩) .dnil)) := by
  exact ⟨by decide, by decide⟩

/-- Witness for C2 (amended): a one-file source colliding with a
one-file target whose backup name is fresh. -/
theorem merge_backup_then_move_witness :
    (Entry.dcons "n" (.file ⟨"A", true, true⟩) .dnil).getChild "n" =
        some (.file ⟨"A", true, true⟩) ∧
    (Entry.dcons "n" (.file ⟨"B", true, true⟩) .dnil).getChild
        ("n" ++ ".backup_" ++ toString 5) = none ∧
    ((Entry.dcons "n.backup_5" (.file ⟨"B", true, true⟩)
        (.dcons "n" (.file ⟨"A", true, true⟩) .dnil)).getChild "n" =
          some (.file ⟨"A", true, true⟩) ∧
      (Entry.dcons "n.backup_5" (.file ⟨"B", true, true⟩)
        (.dcons "n" (.file ⟨"A", true, true⟩) .dnil)).getChild
          ("n" ++ ".backup_" ++ toString 5) = some (.file ⟨"B", true, true⟩) ∧
      ∃ pre post,
        ([.move ["t", "n"] ["t", "n.backup_5"], .move ["s", "n"] ["t", "n"]] : List MOp) =
          pre ++
            .move (["t"] ++ ["n"]) (["t"] ++ ["n" ++ ".backup_" ++ toString 5]) ::
              .move (["s"] ++ ["n"]) (["t"] ++ ["n"]) :: post) :=
  ⟨by decide, by decide,
    merge_backup_then_move 5 "n" ⟨"A", true, true⟩ ⟨"B", true, true⟩
      (.dcons "n" (.file ⟨"A", true, true⟩) .dnil) ["s"] ["t"]
      (.dcons "n" (.file ⟨"B", true, true⟩) .dnil) .dnil
      (.dcons "n.backup_5" (.file ⟨"B", true, true⟩)
        (.dcons "n" (.file ⟨"A", true, true⟩) .dnil))
      [.move ["t", "n"] ["t", "n.backup_5"], .move ["s", "n"] ["t", "n"]]
      (by decide) (by decide) (by decide) (by decide) (by decide) (by decide)
      (by decide) (by decide) (by decide) (by decide) (by decide)⟩
